import Mathlib

/-!
Verification of the in-memory OLAP engine in `src/lib/olap-utils.ts`
(`detectDimensions`, `detectMeasures`, `createOLAPCube`, `aggregateData`,
`sliceCube`, `diceCube`, `drillDown`, `drillUp`, `pivotCube`).

Embedding conventions:
* JavaScript scalars (`string | number`) become the inductive `Value`;
  record/coordinate numbers appearing in the data are integers, so
  `Value.num : Int`.  Measure arithmetic (sums, means) is carried out in `Rat`,
  mirroring exact JS float arithmetic on the small integral inputs involved.
* JS objects used as string-keyed maps become association lists with
  JS-assignment semantics (`objSet`: overwrite in place, else append), and
  property reads become `olookup` returning `Option` (`none` = `undefined`).
* A JS array slot that may hold `undefined` is `Option Value`
  (e.g. `dimension.values`, hierarchy `childMap` entries).
* Impure calls (`new Date()` timestamps) are passed in as an explicit
  `now : Nat` parameter; `console.log` calls are ignored.
* `Number(x)` is modelled by `jsNum`/`jsNumberOfString` (`none` = `NaN`),
  covering decimal literals and whitespace/empty strings; engine-specific
  extras (hex, exponents, `Infinity`) are outside the data domain used here.
* lodash `groupBy` + `Object.values` is modelled as grouping in first-seen
  key order.  (JS additionally fronts integer-like keys; no claim below
  depends on the output order of groups with integer-like keys.)
-/

namespace OlapViz

/-- A JS scalar: `string | number`.  Strict equality `===` is `DecidableEq`. -/
inductive Value where
  | str : String → Value
  | num : Int → Value
deriving DecidableEq, Repr

/-- JS `String(v)` / template-literal rendering of a scalar. -/
def Value.display : Value → String
  | .str s => s
  | .num n => toString n

/-- JS `String(v)` where `v` may be `undefined` (renders as `"undefined"`). -/
def jsStringOfOpt : Option Value → String
  | none => "undefined"
  | some v => v.display

/-- Rendering used by `Array.prototype.join`, where `undefined` becomes `""`. -/
def jsJoinEntry : Option Value → String
  | none => ""
  | some v => v.display

/-- JS truthiness of a scalar (`""` and `0` are falsy). -/
def jsTruthy : Value → Bool
  | .str s => s ≠ ""
  | .num n => n ≠ 0

/-- Property read on a JS object modelled as an association list
(`none` = `undefined`). -/
def olookup {α : Type} : List (String × α) → String → Option α
  | [], _ => none
  | (k', v) :: rest, k => if k' = k then some v else olookup rest k

/-- JS property assignment `m[k] = v`: overwrites in place, else appends. -/
def objSet {α : Type} : List (String × α) → String → α → List (String × α)
  | [], k, v => [(k, v)]
  | (k', v') :: rest, k, v =>
    if k' = k then (k, v) :: rest else (k', v') :: objSet rest k v

/-- `if (!m[k]) m[k] = []` for an array-valued JS map (`[]` is truthy,
so only an absent key is initialised). -/
def objEnsureList {α : Type} (m : List (String × List α)) (k : String) :
    List (String × List α) :=
  if (olookup m k).isSome then m else m ++ [(k, [])]

/-- `m[k].push(v)` for a key already present (no-op when absent, which the
source rules out by initialising first). -/
def objAppendList {α : Type} : List (String × List α) → String → α →
    List (String × List α)
  | [], _, _ => []
  | (k', l) :: rest, k, v =>
    if k' = k then (k', l ++ [v]) :: rest else (k', l) :: objAppendList rest k v

/-- The `[...new Set(xs)]` idiom: distinct elements in first-seen order. -/
def firstSeen {α : Type} [DecidableEq α] : List α → List α
  | [] => []
  | x :: xs => x :: (firstSeen xs).filter (fun y => y ≠ x)

/-- Concatenation of a list of lists (used to model unioning `Set`s). -/
def listFlat {α : Type} : List (List α) → List α
  | [] => []
  | l :: ls => l ++ listFlat ls

/-- JS `String.prototype.split` with a one-character separator. -/
def jsSplitCh (c : Char) : List Char → List (List Char)
  | [] => [[]]
  | x :: xs =>
    match jsSplitCh c xs with
    | [] => [[]]
    | y :: ys => if x = c then [] :: y :: ys else (x :: y) :: ys

/-- Numeric value of a decimal digit character. -/
def digitVal (c : Char) : Nat := c.toNat - 48

/-- Natural number denoted by a list of decimal digit characters. -/
def natOfDigits (cs : List Char) : Nat :=
  cs.foldl (fun a c => 10 * a + digitVal c) 0

/-- JS whitespace as trimmed by `Number()`. -/
def isWS (c : Char) : Bool :=
  c = ' ' ∨ c = '\t' ∨ c = '\n' ∨ c = '\r'

/-- Strip leading and trailing whitespace. -/
def trimList (cs : List Char) : List Char :=
  ((cs.dropWhile isWS).reverse.dropWhile isWS).reverse

/-- Model of JS `Number(s)` for a string `s` (`none` = `NaN`): whitespace is
trimmed, the empty string is `0`, and signed decimal literals (with an
optional fractional part) convert; other strings are `NaN` on the data
domain exercised here. -/
def jsNumberOfString (s : String) : Option Rat :=
  let cs := trimList s.toList
  if cs = [] then some 0
  else
    let signBody : Rat × List Char :=
      match cs with
      | '-' :: rest => (-1, rest)
      | '+' :: rest => (1, rest)
      | _ => (1, cs)
    match jsSplitCh '.' signBody.2 with
    | [ip] =>
      if ip ≠ [] ∧ ip.all Char.isDigit then
        some (signBody.1 * (natOfDigits ip : Rat))
      else none
    | [ip, fp] =>
      if (ip ≠ [] ∨ fp ≠ []) ∧ ip.all Char.isDigit ∧ fp.all Char.isDigit then
        some (signBody.1 *
          ((natOfDigits ip : Rat) + (natOfDigits fp : Rat) / (10 ^ fp.length)))
      else none
    | _ => none

/-- JS `Number(v)` on a scalar (`none` = `NaN`). -/
def jsNum : Value → Option Rat
  | .num n => some (n : Rat)
  | .str s => jsNumberOfString s

/-- JS `Number(v)` where `v` may be `undefined` (`Number(undefined)` is
`NaN`). -/
def jsNumOpt (o : Option Value) : Option Rat := o.bind jsNum

/-- lodash `sumBy` with the identity iteratee (left fold, `0` on `[]`). -/
def jsSum (l : List Rat) : Rat := l.foldl (· + ·) 0

/-- lodash `minBy` with the identity iteratee (`none` on `[]`). -/
def jsMinList (l : List Rat) : Option Rat :=
  l.foldl (fun acc v =>
    match acc with
    | none => some v
    | some a => some (min a v)) none

/-- lodash `maxBy` with the identity iteratee (`none` on `[]`). -/
def jsMaxList (l : List Rat) : Option Rat :=
  l.foldl (fun acc v =>
    match acc with
    | none => some v
    | some a => some (max a v)) none

/-- A flat input record (`DataPoint`): a JS object, column name → scalar.
JS object keys are unique; `recordKeys` below models `Object.keys`. -/
abbrev Record : Type := List (String × Value)

/-- `Object.keys` of a record: key list with duplicates removed
(JS objects cannot hold duplicate keys). -/
def recordKeys (r : Record) : List String :=
  firstSeen (r.map Prod.fst)

/-- Does `hay` start with `needle`? -/
def startsList (needle hay : List Char) : Bool :=
  match needle, hay with
  | [], _ => true
  | _ :: _, [] => false
  | n :: ns, h :: hs => n = h && startsList ns hs

/-- JS `hay.includes(needle)` on character lists. -/
def containsSub (needle hay : List Char) : Bool :=
  match hay with
  | [] => needle.isEmpty
  | _ :: hs => startsList needle hay || containsSub needle hs

/-- `toLowerCase` on one character (column names here are ASCII, where JS
and Unicode lowercasing agree). -/
def lowerCh (c : Char) : Char :=
  if 'A' ≤ c ∧ c ≤ 'Z' then Char.ofNat (c.toNat + 32) else c

/-- Substring test `name.toLowerCase().includes(sub)`. -/
def nameHas (sub name : String) : Bool :=
  containsSub sub.toList (name.toList.map lowerCh)

/-- `Dimension['type']` in `types.ts`. -/
inductive DimType where
  | categorical | numerical | temporal
deriving DecidableEq, Repr

/-- `Measure['type']` / the aggregation kinds of `aggregateData`. -/
inductive AggKind where
  | sum | average | count | min | max
deriving DecidableEq, Repr

/-- `Dimension['hierarchy']` in `types.ts`.  `childMap` entries are the raw
pushed scalars, which for the Product hierarchy may be `undefined`
(hence `Option Value`). -/
structure Hierarchy where
  levels : List String
  parentMap : List (String × String)
  childMap : List (String × List (Option Value))
deriving DecidableEq, Repr

/-- `Dimension` in `types.ts`.  `values`/`uniqueValues` slots may be
`undefined` when a record lacks the column. -/
structure Dimension where
  name : String
  type : DimType
  values : List (Option Value)
  uniqueValues : List (Option Value)
  hierarchy : Option Hierarchy
deriving DecidableEq, Repr

/-- `Measure` in `types.ts`. -/
structure Measure where
  name : String
  type : AggKind
  value : Rat
deriving DecidableEq, Repr

/-- `CubeCell` in `types.ts` (the optional display-only `color` field is
never read by the engine and is omitted). -/
structure CubeCell where
  coordinates : List (String × Value)
  measures : List (String × Rat)
deriving DecidableEq, Repr

/-- `OLAPCube['metadata']`; `lastUpdated` is an abstract timestamp. -/
structure CubeMetadata where
  totalRecords : Nat
  lastUpdated : Nat
deriving DecidableEq, Repr

/-- `OLAPCube` in `types.ts` (`data` is the cell list, called `cells` in the
spec). -/
structure OLAPCube where
  dimensions : List Dimension
  measures : List Measure
  data : List CubeCell
  metadata : CubeMetadata
deriving DecidableEq, Repr

/-- `AxisAssignment` in `types.ts` (`null` = `none`). -/
structure AxisAssignment where
  x : Option String
  y : Option String
  z : Option String
  measure : Option String
deriving DecidableEq, Repr

/-- The explicit-measure name test shared by `detectDimensions` and
`detectMeasures`: lowercased name contains sales/revenue/profit/amount. -/
def isMeasureNameCore (key : String) : Bool :=
  nameHas "sales" key || nameHas "revenue" key ||
  nameHas "profit" key || nameHas "amount" key

/-- The skip condition of `detectDimensions` (olap-utils.ts:236-243).  By
JS operator precedence `&&` binds tighter than `||`, so the
`every(... typeof === 'number')` guard applies to `quantity` only. -/
def dimSkip (data : List Record) (key : String) : Bool :=
  isMeasureNameCore key ||
  (nameHas "quantity" key &&
    data.all (fun r =>
      match olookup r key with
      | some (.num _) => true
      | _ => false))

/-- `typeof v === 'number' || !isNaN(Number(v))` on a possibly-`undefined`
column slot. -/
def jsIsNumericSlot (o : Option Value) : Bool := (jsNumOpt o).isSome

/-- Year component used by the Date hierarchy: `date.split('-')[0]`. -/
def yearOf (d : String) : String :=
  ((jsSplitCh '-' d.toList).headD []).asString

/-- Month component used by the Date hierarchy: `date.split('-')[1]`,
template-rendered (`undefined` when the split has a single part). -/
def monthPart (d : String) : String :=
  match jsSplitCh '-' d.toList with
  | _ :: m :: _ => m.asString
  | _ => "undefined"

/-- Month key used by the Date hierarchy: `` `${year}-${month}` ``. -/
def monthKeyOf (d : String) : String :=
  yearOf d ++ "-" ++ monthPart d

/-- One iteration of the `dates.forEach` loop building the Date hierarchy
(olap-utils.ts:277-291). -/
def dateHierStep (acc : List (String × String) × List (String × List (Option Value)))
    (date : String) :
    List (String × String) × List (String × List (Option Value)) :=
  let mk := monthKeyOf date
  let y := yearOf date
  let pm := objSet (objSet acc.1 date mk) mk y
  let cm := objEnsureList (objEnsureList acc.2 y) mk
  let cm := objAppendList (objAppendList cm y (some (Value.str mk))) mk
    (some (Value.str date))
  (pm, cm)

/-- The Date hierarchy (olap-utils.ts:264-291): Year → Month → Day maps
built by string-splitting each value's rendering on `-`. -/
def dateHierarchy (values : List (Option Value)) : Hierarchy :=
  let dates := values.map jsStringOfOpt
  let built := dates.foldl dateHierStep ([], [])
  ⟨["Year", "Month", "Day"], built.1, built.2⟩

/-- `data.find(row => row.Product === product)?.Category` from the Product
hierarchy construction. -/
def catOf (data : List Record) (product : Option Value) : Option Value :=
  (data.find? (fun r => olookup r "Product" == product)).bind
    (fun r => olookup r "Category")

/-- One iteration of the `products.forEach` loop building the Product
hierarchy (olap-utils.ts:303-310). -/
def productHierStep (data : List Record)
    (acc : List (String × String) × List (String × List (Option Value)))
    (product : Option Value) :
    List (String × String) × List (String × List (Option Value)) :=
  match catOf data product with
  | some c =>
    if jsTruthy c then
      (objSet acc.1 (jsStringOfOpt product) c.display,
       objAppendList (objEnsureList acc.2 c.display) c.display product)
    else acc
  | none => acc

/-- The Product hierarchy (olap-utils.ts:292-311): Category → Product,
joining each distinct product to the `Category` of the first record
holding it. -/
def productHierarchy (data : List Record) (uniq : List (Option Value)) :
    Hierarchy :=
  let built := uniq.foldl (productHierStep data) ([], [])
  ⟨["Category", "Product"], built.1, built.2⟩

/-- The dimension built for a retained column (olap-utils.ts:245-319).
The `> 0.8` threshold is stated over rationals: since the numeric count is
an integer and IEEE rounding of `values.length * 0.8` never drops below an
integral exact product, `count > len * 0.8` in JS floats coincides with
`5 * count > 4 * len`. -/
def mkDimension (data : List Record) (key : String) : Dimension :=
  let values := data.map (fun r => olookup r key)
  let uniqueValues := firstSeen values
  let numericCount := values.countP jsIsNumericSlot
  let ty : DimType :=
    if 5 * numericCount > 4 * values.length then .numerical
    else if nameHas "date" key || nameHas "time" key then .temporal
    else .categorical
  let hierarchy : Option Hierarchy :=
    if key = "Date" then some (dateHierarchy values)
    else if key = "Product" then some (productHierarchy data uniqueValues)
    else none
  ⟨key, ty, values, uniqueValues, hierarchy⟩

/-- `detectDimensions` (olap-utils.ts:228-323). -/
def detectDimensions (data : List Record) : List Dimension :=
  match data with
  | [] => []
  | r0 :: _ =>
    (recordKeys r0).filterMap (fun key =>
      if dimSkip data key then none else some (mkDimension data key))

/-- `detectMeasures` (olap-utils.ts:325-352).  The source's intermediate
consts (`isExplicitMeasure`, `isNumericColumn`, `values`) are inlined;
`isExplicitMeasure` is the five-keyword test and `isNumericColumn` the
everywhere-coercible test. -/
def detectMeasures (data : List Record) (dimensions : List Dimension) :
    List Measure :=
  match data with
  | [] => []
  | r0 :: _ =>
    (recordKeys r0).filterMap (fun key =>
      if (dimensions.map Dimension.name).contains key then none
      else if (isMeasureNameCore key || nameHas "quantity" key) ||
          data.all (fun r => (jsNumOpt (olookup r key)).isSome) then
        if (data.filterMap (fun r => jsNumOpt (olookup r key))).length > 0 then
          some ⟨key, .sum,
            jsSum (data.filterMap (fun r => jsNumOpt (olookup r key)))⟩
        else none
      else none)

/-- The cell built for one record by `createOLAPCube` (olap-utils.ts:358-374);
a coordinate assignment of `undefined` (record lacking the column) is
modelled as the key being absent, which is indistinguishable to every
consumer (`===` filters, `String(...)`, `join`). -/
def mkCell (dimensions : List Dimension) (measures : List Measure)
    (row : Record) : CubeCell :=
  ⟨dimensions.filterMap (fun dm =>
      (olookup row dm.name).map (fun v => (dm.name, v))),
   measures.map (fun me =>
      (me.name, (jsNumOpt (olookup row me.name)).getD 0))⟩

/-- `createOLAPCube` (olap-utils.ts:354-385) with the `new Date()` timestamp
passed explicitly. -/
def createOLAPCube (data : List Record) (now : Nat) : OLAPCube :=
  let dimensions := detectDimensions data
  let measures := detectMeasures data dimensions
  ⟨dimensions, measures, data.map (mkCell dimensions measures),
   ⟨data.length, now⟩⟩

/-- The lodash `groupBy` key (olap-utils.ts:393-395):
dimension coordinates rendered and `'|'`-joined (`undefined` renders
as `""` under `join`). -/
def groupKey (dims : List String) (c : CubeCell) : String :=
  String.intercalate "|" (dims.map (fun d => jsJoinEntry (olookup c.coordinates d)))

/-- `Object.values(groupBy(data, key))`: the groups, one per distinct key in
first-seen order; every group is the (nonempty) sublist sharing that key. -/
def olapGroups (data : List CubeCell) (dims : List String) :
    List (List CubeCell) :=
  (firstSeen (data.map (groupKey dims))).map
    (fun k => data.filter (fun c => groupKey dims c == k))

/-- The `switch (aggregationType)` of `aggregateData` (olap-utils.ts:406-422);
`minBy(...) || 0` and `maxBy(...) || 0` are `getD 0` (an extremum of `0`
is mapped to `0` by both). -/
def aggValue (ty : AggKind) (values : List Rat) : Rat :=
  match ty with
  | .sum => jsSum values
  | .average => jsSum values / (values.length : Rat)
  | .count => (values.length : Rat)
  | .min => (jsMinList values).getD 0
  | .max => (jsMaxList values).getD 0

/-- The cell emitted for one group (olap-utils.ts:397-427): coordinates from
the group's first cell at the grouped dimensions, one measure entry;
`cell.measures[measureName] || 0` is `getD 0`. -/
def emitCell (dims : List String) (mname : String) (ty : AggKind)
    (g : List CubeCell) : CubeCell :=
  let coords : List (String × Value) :=
    match g.head? with
    | some c0 => dims.filterMap (fun d =>
        (olookup c0.coordinates d).map (fun v => (d, v)))
    | none => []
  let values := g.map (fun c => (olookup c.measures mname).getD 0)
  ⟨coords, [(mname, aggValue ty values)]⟩

/-- `aggregateData` (olap-utils.ts:387-429). -/
def aggregateData (data : List CubeCell) (dims : List String)
    (mname : String) (ty : AggKind) : List CubeCell :=
  (olapGroups data dims).map (emitCell dims mname ty)

/-- `sliceCube` (olap-utils.ts:431-448): strict-equality filter on one
coordinate; an absent coordinate (`undefined === value`) never matches. -/
def sliceCube (cube : OLAPCube) (dimension : String) (value : Value) :
    OLAPCube :=
  let filteredData := cube.data.filter
    (fun c => olookup c.coordinates dimension == some value)
  { cube with
    data := filteredData,
    metadata := { cube.metadata with totalRecords := filteredData.length } }

/-- `diceCube` (olap-utils.ts:450-468): conjunction over the condition
entries, membership (`includes`) within each allowed-value list. -/
def diceCube (cube : OLAPCube) (conditions : List (String × List Value)) :
    OLAPCube :=
  let filteredData := cube.data.filter (fun c =>
    conditions.all (fun p =>
      match olookup c.coordinates p.1 with
      | some v => p.2.contains v
      | none => false))
  { cube with
    data := filteredData,
    metadata := { cube.metadata with totalRecords := filteredData.length } }

/-- `drillDown` (olap-utils.ts:470-509).  `targetLevel` is accepted and
ignored, exactly as in the source.  The `Set` of next-level values is
modelled as a concatenated list (membership- and emptiness-equivalent). -/
def drillDown (cube : OLAPCube) (dimension : String) (targetLevel : String) :
    OLAPCube :=
  if cube.data = [] then cube
  else
    match cube.dimensions.find? (fun d => d.name == dimension) with
    | none => cube
    | some dim =>
      match dim.hierarchy with
      | none => cube
      | some h =>
        match cube.measures.head? with
        | none => cube
        | some m0 =>
          if m0.name = "" then cube
          else
            let currentValues :=
              firstSeen (cube.data.map (fun c => olookup c.coordinates dimension))
            let nextLevelValues := listFlat (currentValues.map (fun v =>
              (olookup h.childMap (jsStringOfOpt v)).getD []))
            if nextLevelValues = [] then cube
            else
              let drilledData := cube.data.filter (fun c =>
                nextLevelValues.contains
                  (some (Value.str (jsStringOfOpt (olookup c.coordinates dimension)))))
              { cube with
                data := drilledData,
                metadata := { cube.metadata with
                  totalRecords := drilledData.length } }

/-- The granularities recognised by `drillUp`. -/
inductive Gran where
  | day | month | year
deriving DecidableEq, Repr

/-- `/^\d{4}-\d{2}-\d{2}$/.test s`. -/
def matchYMD (s : String) : Bool :=
  match s.toList with
  | [a, b, c, d, e, f, g, h, i, j] =>
    a.isDigit && b.isDigit && c.isDigit && d.isDigit && e = '-' &&
    f.isDigit && g.isDigit && h = '-' && i.isDigit && j.isDigit
  | _ => false

/-- `/^\d{4}-\d{2}$/.test s`. -/
def matchYM (s : String) : Bool :=
  match s.toList with
  | [a, b, c, d, e, f, g] =>
    a.isDigit && b.isDigit && c.isDigit && d.isDigit && e = '-' &&
    f.isDigit && g.isDigit
  | _ => false

/-- `/^\d{4}$/.test s`. -/
def matchY (s : String) : Bool :=
  match s.toList with
  | [a, b, c, d] => a.isDigit && b.isDigit && c.isDigit && d.isDigit
  | _ => false

/-- Gregorian leap-year rule (as implemented by JS `Date`). -/
def isLeap (y : Nat) : Bool :=
  y % 4 = 0 && (y % 100 ≠ 0 || y % 400 = 0)

/-- Days in a month, for `Date`'s validity check of `YYYY-MM-DD` strings. -/
def daysInMonth (y m : Nat) : Nat :=
  if m = 2 then (if isLeap y then 29 else 28)
  else if m = 4 ∨ m = 6 ∨ m = 9 ∨ m = 11 then 30
  else 31

/-- A JS `Date` as far as `drillUp` reads it (`getFullYear`, `getMonth`):
either a valid year/1-based-month pair or an Invalid Date (NaN fields). -/
inductive JsDate where
  | valid (y m : Nat)
  | invalid
deriving DecidableEq, Repr

/-- `parseToDate` inside `drillUp` (olap-utils.ts:522-531), in a UTC
environment: the three anchored-regex forms parse by field extraction
(out-of-range fields give an Invalid Date); the trailing `Date.parse`
fallback accepts only engine-specific formats outside the data domain
here and is modelled as unparseable (`null`). -/
def parseToDate (o : Option Value) : Option JsDate :=
  match o with
  | none => none
  | some v =>
    let s := v.display
    let cs := s.toList
    if matchYMD s then
      let y := natOfDigits (cs.take 4)
      let m := natOfDigits ((cs.drop 5).take 2)
      let d := natOfDigits (cs.drop 8)
      if 1 ≤ m ∧ m ≤ 12 ∧ 1 ≤ d ∧ d ≤ daysInMonth y m then some (.valid y m)
      else some .invalid
    else if matchYM s then
      let y := natOfDigits (cs.take 4)
      let m := natOfDigits (cs.drop 5)
      if 1 ≤ m ∧ m ≤ 12 then some (.valid y m) else some .invalid
    else if matchY s then some (.valid (natOfDigits cs) 1)
    else none

/-- `detectGranularity` inside `drillUp` (olap-utils.ts:533-541): the first
value whose rendering matches one of the three forms decides; default
`day`. -/
def detectGranularity : List (Option Value) → Gran
  | [] => .day
  | v :: rest =>
    let s := jsStringOfOpt v
    if matchYMD s then .day
    else if matchYM s then .month
    else if matchY s then .year
    else detectGranularity rest

/-- `String(n).padStart(2, '0')` for the month number. -/
def pad2 (n : Nat) : String :=
  if n < 10 then "0" ++ toString n else toString n

/-- The coarsened coordinate string written by `drillUp`
(olap-utils.ts:553-558); an Invalid Date renders its NaN fields. -/
def coarserCoord (g : Gran) (jd : JsDate) : String :=
  match jd with
  | .invalid =>
    match g with
    | .month => "NaN-NaN"
    | .year => "NaN"
    | .day => ""
  | .valid y m =>
    match g with
    | .month => toString y ++ "-" ++ pad2 m
    | .year => toString y
    | .day => ""

/-- The per-cell coordinate rewrite of `drillUp` (olap-utils.ts:549-566).
When the coordinate is absent the JS code re-assigns `undefined`, which is
observably the unchanged cell. -/
def drillUpCell (dimension : String) (coarser : Gran) (c : CubeCell) :
    CubeCell :=
  let original := olookup c.coordinates dimension
  match parseToDate original with
  | some jd =>
    { c with coordinates :=
        objSet c.coordinates dimension (Value.str (coarserCoord coarser jd)) }
  | none => c

/-- `drillUp` (olap-utils.ts:511-592) with the `new Date()` timestamp passed
explicitly.  `sourceLevel` is only logged by the source and is ignored. -/
def drillUp (cube : OLAPCube) (dimension : String) (sourceLevel : String)
    (now : Nat) : OLAPCube :=
  if cube.data = [] then cube
  else
    match cube.measures.head? with
    | none => cube
    | some m0 =>
      if m0.name = "" then cube
      else
        let measureName := m0.name
        let dimValues := cube.data.map (fun c => olookup c.coordinates dimension)
        let currentGran := detectGranularity dimValues
        let coarser : Gran :=
          match currentGran with
          | .day => .month
          | .month => .year
          | .year => .year
        let transformed := cube.data.map (drillUpCell dimension coarser)
        let groupByDims := cube.dimensions.map Dimension.name
        let aggregated := aggregateData transformed groupByDims measureName .sum
        let uniqueValues :=
          firstSeen (aggregated.map (fun a => olookup a.coordinates dimension))
        let newDim : Dimension :=
          match cube.dimensions.find? (fun d => d.name == dimension) with
          | some ed =>
            { ed with uniqueValues := uniqueValues, values := uniqueValues }
          | none => ⟨dimension, .temporal, uniqueValues, uniqueValues, none⟩
        let newDimensions := cube.dimensions.map
          (fun d => if d.name = dimension then newDim else d)
        let total := jsSum (aggregated.map
          (fun c => (olookup c.measures measureName).getD 0))
        { cube with
          dimensions := newDimensions,
          measures := [⟨measureName, .sum, total⟩],
          data := aggregated,
          metadata := ⟨aggregated.length, now⟩ }

/-- JS `a || b` on possibly-absent strings (`""` is falsy). -/
def jsStrOr (a b : Option String) : Option String :=
  match a with
  | some s => if s = "" then b else some s
  | none => b

/-- `pivotCube` (olap-utils.ts:594-640) with the `new Date()` timestamp
passed explicitly. -/
def pivotCube (cube : OLAPCube) (axis : AxisAssignment) (now : Nat) :
    OLAPCube :=
  let axes := [axis.x, axis.y, axis.z].filterMap id
  if axes = [] then cube
  else
    match jsStrOr axis.measure (cube.measures.head?.map Measure.name) with
    | none => cube
    | some measureName =>
      if measureName = "" then cube
      else
        let aggregated := aggregateData cube.data axes measureName .sum
        let newDimensions := axes.map (fun axisName =>
          let uniqueValues :=
            firstSeen (aggregated.map (fun a => olookup a.coordinates axisName))
          match cube.dimensions.find? (fun d => d.name == axisName) with
          | some existing => { existing with uniqueValues := uniqueValues }
          | none => ⟨axisName, .categorical, uniqueValues, uniqueValues, none⟩)
        let total := jsSum (aggregated.map
          (fun c => (olookup c.measures measureName).getD 0))
        { dimensions := newDimensions,
          measures := [⟨measureName, .sum, total⟩],
          data := aggregated,
          metadata := ⟨aggregated.length, now⟩ }

/-! Concrete inputs used by the spec's scenario and by witnesses. -/

/-- The spec's concrete scenario records:
`[{Region:"East",Product:"A",Sales:100}, {Region:"East",Product:"B",Sales:50},
{Region:"West",Product:"A",Sales:30}]`. -/
def scenarioRecords : List Record :=
  [[("Region", .str "East"), ("Product", .str "A"), ("Sales", .num 100)],
   [("Region", .str "East"), ("Product", .str "B"), ("Sales", .num 50)],
   [("Region", .str "West"), ("Product", .str "A"), ("Sales", .num 30)]]

/-- The cube built from the scenario records (timestamp fixed at 0). -/
def scenarioCube : OLAPCube := createOLAPCube scenarioRecords 0

/-- Two cells whose `d`-coordinates differ under strict equality (a number
and a numeric string) yet render to the same grouping key `"1"`. -/
def collideCellA : CubeCell := ⟨[("d", .num 1)], [("m", 5)]⟩

/-- Companion cell to `collideCellA`, carrying the string `"1"`. -/
def collideCellB : CubeCell := ⟨[("d", .str "1")], [("m", 7)]⟩

/-- Records whose `Date` column holds a month-granularity value: the value
`"2023-01"` coincides with its own derived month key. -/
def monthDateRecords : List Record := [[("Date", .str "2023-01")]]

/-- The (unique) dimension detected from `monthDateRecords`. -/
def monthDateDim : Dimension :=
  ((detectDimensions monthDateRecords).head?).getD ⟨"", .categorical, [], [], none⟩

/-- The hierarchy attached to `monthDateDim`. -/
def monthDateHier : Hierarchy := monthDateDim.hierarchy.getD ⟨[], [], []⟩

/-- Well-formed day-granularity Date records, for the amended C7 witness. -/
def dayDateRecords : List Record :=
  [[("Date", .str "2023-01-05"), ("Category", .str "Food"),
    ("Product", .str "A"), ("Sales", .num 3)],
   [("Date", .str "2023-02-06"), ("Category", .str "Drink"),
    ("Product", .str "B"), ("Sales", .num 4)]]

/-- The Date dimension detected from `dayDateRecords`. -/
def dayDateDim : Dimension :=
  ((detectDimensions dayDateRecords).head?).getD ⟨"", .categorical, [], [], none⟩

/-- The hierarchy attached to `dayDateDim`. -/
def dayDateHier : Hierarchy := dayDateDim.hierarchy.getD ⟨[], [], []⟩

/-- Total of one named measure over a cell list, a missing entry counting
as `0` (the quantity the spec's sum invariant speaks about). -/
def measureTotal (cells : List CubeCell) (mn : String) : Rat :=
  (cells.map (fun c => (olookup c.measures mn).getD 0)).sum

/-- The parent-to-child half of the hierarchy duality, as an invariant. -/
def DualAC (pm : List (String × String))
    (cm : List (String × List (Option Value))) : Prop :=
  ∀ k p, olookup pm k = some p →
    ∃ w ∈ (olookup cm p).getD [], jsStringOfOpt w = k

/-- A cube whose single dimension carries no hierarchy (for exercising the
no-op branches of `drillDown` and `pivotCube`). -/
def noHierCube : OLAPCube :=
  ⟨[⟨"d", .categorical, [some (.str "x")], [some (.str "x")], none⟩],
   [⟨"m", .sum, 0⟩],
   [⟨[("d", .str "x")], [("m", 0)]⟩],
   ⟨1, 0⟩⟩

/-- A two-cell cube with day-granularity Date coordinates, for exercising
`drillUp` and `pivotCube` on their aggregation path. -/
def tinyDrillCube : OLAPCube :=
  ⟨[⟨"Date", .temporal, [], [], none⟩],
   [⟨"Sales", .sum, 0⟩],
   [⟨[("Date", .str "2023-01-05")], [("Sales", 1)]⟩,
    ⟨[("Date", .str "2023-02-06")], [("Sales", 2)]⟩],
   ⟨2, 0⟩⟩

/-- Records with a single categorical column. -/
def cityRecords : List Record := [[("City", .str "a")]]

/-- The dimension detected from `cityRecords`. -/
def cityDim : Dimension :=
  ((detectDimensions cityRecords).head?).getD ⟨"", .categorical, [], [], none⟩

/-- The (unique) measure of the scenario cube. -/
def scenarioMeasure : Measure :=
  ((createOLAPCube scenarioRecords 0).measures.head?).getD ⟨"", .sum, 0⟩

/-! ### General lemmas about the helper functions -/

theorem mem_firstSeen {α : Type} [DecidableEq α] {a : α} :
    ∀ {l : List α}, a ∈ firstSeen l ↔ a ∈ l := by
  intro l
  induction l with
  | nil => simp [firstSeen]
  | cons x xs ih =>
    by_cases hax : a = x
    · subst hax; simp [firstSeen]
    · simp [firstSeen, List.mem_filter, hax, ih]

theorem nodup_firstSeen {α : Type} [DecidableEq α] :
    ∀ (l : List α), (firstSeen l).Nodup := by
  intro l
  induction l with
  | nil => simp [firstSeen]
  | cons x xs ih =>
    refine List.Nodup.cons ?_ (List.Nodup.filter _ ih)
    intro hx
    rcases List.mem_filter.mp hx with ⟨-, hne⟩
    simp at hne

theorem olookup_objSet {α : Type} (k : String) (v : α) :
    ∀ (m : List (String × α)) (k2 : String),
      olookup (objSet m k v) k2 = if k = k2 then some v else olookup m k2
  | [], k2 => by simp [objSet, olookup]
  | (a, b) :: rest, k2 => by
    by_cases ha : a = k
    · subst ha
      by_cases h2 : a = k2
      · subst h2; simp [objSet, olookup]
      · simp [objSet, olookup, h2]
    · by_cases h2 : a = k2
      · subst h2
        have hk : ¬ k = a := fun he => ha he.symm
        simp [objSet, ha, olookup, hk]
      · simp [objSet, ha, olookup, h2, olookup_objSet k v rest k2]

theorem olookup_append_single {α : Type} (k : String) (v : α) :
    ∀ (m : List (String × α)) (k2 : String),
      olookup (m ++ [(k, v)]) k2 =
        ((olookup m k2).rec (if k = k2 then some v else none) some : Option α)
  | [], k2 => by simp [olookup]
  | (a, b) :: rest, k2 => by
    by_cases h2 : a = k2
    · simp [olookup, h2]
    · simp [olookup, h2, olookup_append_single k v rest k2]

theorem olookup_objEnsureList {α : Type} (m : List (String × List α))
    (k : String) : ∀ k2, olookup (objEnsureList m k) k2 =
      if k = k2 then some ((olookup m k).getD []) else olookup m k2 := by
  intro k2
  unfold objEnsureList
  rcases hm : olookup m k with _ | l
  · simp only [hm, Option.isSome_none, Bool.false_eq_true, if_false]
    rw [olookup_append_single]
    by_cases h : k = k2
    · subst h; simp [hm]
    · rcases h2 : olookup m k2 with _ | w <;> simp [h]
  · simp only [hm, Option.isSome_some, if_true]
    by_cases h : k = k2
    · subst h; simp [hm]
    · simp [h]

theorem olookup_objAppendList {α : Type} (k : String) (v : α) :
    ∀ (m : List (String × List α)) (l : List α), olookup m k = some l →
    ∀ k2, olookup (objAppendList m k v) k2 =
      if k = k2 then some (l ++ [v]) else olookup m k2
  | [], l, hm => by simp [olookup] at hm
  | (a, b) :: rest, l, hm => by
    intro k2
    by_cases ha : a = k
    · subst ha
      have hb : b = l := by simpa [olookup] using hm
      subst hb
      by_cases h2 : a = k2
      · subst h2; simp [objAppendList, olookup]
      · have hk : ¬ a = k2 := h2
        simp [objAppendList, olookup, hk]
    · simp only [olookup, if_neg ha] at hm
      by_cases h2 : a = k2
      · subst h2
        have hk : ¬ k = a := fun he => ha he.symm
        simp [objAppendList, ha, olookup, hk]
      · simp [objAppendList, ha, olookup, h2,
          olookup_objAppendList k v rest l hm k2]

/-- JS `m[k].push(v)` after ensuring the slot: appends to the (possibly
fresh) list at `k` and touches nothing else. -/
theorem olookup_objPush {α : Type} (m : List (String × List α))
    (k : String) (v : α) :
    ∀ k2, olookup (objAppendList (objEnsureList m k) k v) k2 =
      if k = k2 then some ((olookup m k).getD [] ++ [v]) else olookup m k2 := by
  intro k2
  have he := olookup_objEnsureList m k
  have hk : olookup (objEnsureList m k) k = some ((olookup m k).getD []) := by
    simpa using he k
  rw [olookup_objAppendList k v _ _ hk k2]
  by_cases h : k = k2 <;> simp [h, he k2]

theorem jsSum_eq_sum : ∀ (l : List Rat), jsSum l = l.sum := by
  have general : ∀ (l : List Rat) (a : Rat), l.foldl (· + ·) a = a + l.sum := by
    intro l
    induction l with
    | nil => intro a; simp
    | cons x t ih => intro a; simp [List.foldl_cons, ih, List.sum_cons]; ring
  intro l
  simpa using general l 0

theorem sum_map_add (K : List String) (g h : String → Rat) :
    (K.map (fun k => g k + h k)).sum = (K.map g).sum + (K.map h).sum := by
  induction K with
  | nil => simp
  | cons k K ih => simp [ih]; ring

theorem sum_single_key (c : Rat) :
    ∀ (K : List String), K.Nodup → ∀ a ∈ K,
      (K.map (fun k => if a = k then c else 0)).sum = c := by
  intro K
  induction K with
  | nil => intro _ a ha; simp at ha
  | cons k K ih =>
    intro hnd a ha
    rcases List.nodup_cons.mp hnd with ⟨hk, hK⟩
    rcases List.mem_cons.mp ha with h | h
    · subst h
      have : (K.map (fun q => if a = q then c else 0)).sum = 0 := by
        apply List.sum_eq_zero
        intro x hx
        rcases List.mem_map.mp hx with ⟨q, hq, rfl⟩
        have : ¬ a = q := fun he => hk (he ▸ hq)
        simp [this]
      simp [this]
    · have hne : ¬ a = k := fun he => hk (he ▸ h)
      simp [hne, ih hK a h]

/-- Grouping by key and summing group totals recovers the whole total. -/
theorem sum_over_groups {α : Type} (key : α → String) (f : α → Rat) :
    ∀ (l : List α) (K : List String), K.Nodup → (∀ x ∈ l, key x ∈ K) →
      (K.map (fun k => ((l.filter fun x => key x == k).map f).sum)).sum
        = (l.map f).sum := by
  intro l
  induction l with
  | nil =>
    intro K _ _
    simp [List.sum_eq_zero]
  | cons x t ih =>
    intro K hnd hcov
    have hx : key x ∈ K := hcov x (List.mem_cons_self x t)
    have step : ∀ k, ((List.filter (fun y => key y == k) (x :: t)).map f).sum
        = (if key x = k then f x else 0)
          + ((t.filter fun y => key y == k).map f).sum := by
      intro k
      by_cases h : key x = k
      · simp [List.filter_cons, h]
      · simp [List.filter_cons, h]
    calc (K.map (fun k => ((List.filter (fun y => key y == k) (x :: t)).map f).sum)).sum
        = (K.map (fun k => (if key x = k then f x else 0)
            + ((t.filter fun y => key y == k).map f).sum)).sum := by
          congr 1
          exact List.map_congr_left (fun k _ => step k)
      _ = (K.map (fun k => if key x = k then f x else 0)).sum
            + (K.map (fun k => ((t.filter fun y => key y == k).map f).sum)).sum :=
          sum_map_add K _ _
      _ = f x + (t.map f).sum := by
          rw [sum_single_key (f x) K hnd (key x) hx,
            ih K hnd (fun y hy => hcov y (List.mem_cons_of_mem x hy))]
      _ = ((x :: t).map f).sum := by simp

/-- Every group produced by `olapGroups` is nonempty. -/
theorem olapGroups_ne_nil (data : List CubeCell) (dims : List String) :
    ∀ g ∈ olapGroups data dims, g ≠ [] := by
  intro g hg
  rcases List.mem_map.mp hg with ⟨k, hk, rfl⟩
  rcases List.mem_map.mp (mem_firstSeen.mp hk) with ⟨c, hc, rfl⟩
  intro hnil
  have : c ∈ List.filter (fun c' => groupKey dims c' == groupKey dims c) data :=
    List.mem_filter.mpr ⟨hc, by simp⟩
  rw [hnil] at this
  simp at this

/-- Summing a measure over the output of a `sum`-aggregation recovers the
total over the input cells. -/
theorem aggregate_sum_total (data : List CubeCell) (dims : List String)
    (mn : String) :
    measureTotal (aggregateData data dims mn .sum) mn = measureTotal data mn := by
  unfold measureTotal aggregateData olapGroups
  rw [List.map_map, List.map_map]
  have hemit : ∀ k, ((fun c => (olookup c.measures mn).getD 0) ∘
      emitCell dims mn .sum ∘ fun k => data.filter fun c => groupKey dims c == k) k
      = ((data.filter fun c => groupKey dims c == k).map
          (fun c => (olookup c.measures mn).getD 0)).sum := by
    intro k
    simp only [Function.comp_apply, emitCell, aggValue, olookup, if_pos rfl,
      Option.getD_some, jsSum_eq_sum, List.map_map]
    rfl
  calc ((firstSeen (data.map (groupKey dims))).map _).sum
      = ((firstSeen (data.map (groupKey dims))).map (fun k =>
          ((data.filter fun c => groupKey dims c == k).map
            (fun c => (olookup c.measures mn).getD 0)).sum)).sum := by
        congr 1
        exact List.map_congr_left (fun k _ => hemit k)
    _ = (data.map (fun c => (olookup c.measures mn).getD 0)).sum := by
        apply sum_over_groups (groupKey dims) _ data
        · exact nodup_firstSeen _
        · intro c hc
          exact mem_firstSeen.mpr (List.mem_map_of_mem (groupKey dims) hc)

theorem jsMinList_cons (x : Rat) (t : List Rat) :
    jsMinList (x :: t) = some (t.foldl min x) := by
  suffices h : ∀ (t : List Rat) (a : Rat),
      t.foldl (fun acc v =>
        match acc with
        | none => some v
        | some a => some (min a v)) (some a) = some (t.foldl min a) by
    simpa [jsMinList] using h t x
  intro t
  induction t with
  | nil => intro a; rfl
  | cons y t ih => intro a; simpa using ih (min a y)

theorem jsMaxList_cons (x : Rat) (t : List Rat) :
    jsMaxList (x :: t) = some (t.foldl max x) := by
  suffices h : ∀ (t : List Rat) (a : Rat),
      t.foldl (fun acc v =>
        match acc with
        | none => some v
        | some a => some (max a v)) (some a) = some (t.foldl max a) by
    simpa [jsMaxList] using h t x
  intro t
  induction t with
  | nil => intro a; rfl
  | cons y t ih => intro a; simpa using ih (max a y)

theorem foldl_min_mem : ∀ (t : List Rat) (a : Rat), t.foldl min a ∈ a :: t := by
  intro t
  induction t with
  | nil => intro a; simp
  | cons x t ih =>
    intro a
    show List.foldl min (min a x) t ∈ a :: x :: t
    rcases List.mem_cons.mp (ih (min a x)) with h1 | h2
    · rcases min_choice a x with hc | hc
      · rw [h1, hc]; exact List.mem_cons_self _ _
      · rw [h1, hc]; exact List.mem_cons_of_mem _ (List.mem_cons_self _ _)
    · exact List.mem_cons_of_mem _ (List.mem_cons_of_mem _ h2)

theorem foldl_min_le : ∀ (t : List Rat) (a : Rat), ∀ w ∈ a :: t, t.foldl min a ≤ w := by
  intro t
  induction t with
  | nil => intro a w hw; simp at hw; simp [hw]
  | cons x t ih =>
    intro a w hw
    show List.foldl min (min a x) t ≤ w
    have hle : List.foldl min (min a x) t ≤ min a x :=
      ih (min a x) (min a x) (List.mem_cons_self _ _)
    rcases List.mem_cons.mp hw with h1 | hw2
    · rw [h1]; exact le_trans hle (min_le_left a x)
    · rcases List.mem_cons.mp hw2 with h2 | h3
      · rw [h2]; exact le_trans hle (min_le_right a x)
      · exact ih (min a x) w (List.mem_cons_of_mem _ h3)

theorem foldl_max_mem : ∀ (t : List Rat) (a : Rat), t.foldl max a ∈ a :: t := by
  intro t
  induction t with
  | nil => intro a; simp
  | cons x t ih =>
    intro a
    show List.foldl max (max a x) t ∈ a :: x :: t
    rcases List.mem_cons.mp (ih (max a x)) with h1 | h2
    · rcases max_choice a x with hc | hc
      · rw [h1, hc]; exact List.mem_cons_self _ _
      · rw [h1, hc]; exact List.mem_cons_of_mem _ (List.mem_cons_self _ _)
    · exact List.mem_cons_of_mem _ (List.mem_cons_of_mem _ h2)

theorem foldl_max_ge : ∀ (t : List Rat) (a : Rat), ∀ w ∈ a :: t, w ≤ t.foldl max a := by
  intro t
  induction t with
  | nil => intro a w hw; simp at hw; simp [hw]
  | cons x t ih =>
    intro a w hw
    show w ≤ List.foldl max (max a x) t
    have hle : max a x ≤ List.foldl max (max a x) t :=
      ih (max a x) (max a x) (List.mem_cons_self _ _)
    rcases List.mem_cons.mp hw with h1 | hw2
    · rw [h1]; exact le_trans (le_max_left a x) hle
    · rcases List.mem_cons.mp hw2 with h2 | h3
      · rw [h2]; exact le_trans (le_max_right a x) hle
      · exact ih (max a x) w (List.mem_cons_of_mem _ h3)

theorem sum_filterMap_getD {α : Type} (g : α → Option Rat) :
    ∀ l : List α, (l.filterMap g).sum = (l.map (fun r => (g r).getD 0)).sum := by
  intro l
  induction l with
  | nil => simp
  | cons r l ih =>
    rcases hg : g r with _ | v <;>
      simp [List.filterMap_cons, hg, ih]

/-- Looking a measure's name up in the per-cell measure map built by
`mkCell` returns that measure's own slot, provided measure names are
distinct. -/
theorem olookup_map_measures {α : Type} (f : Measure → α) :
    ∀ (ms : List Measure), (ms.map Measure.name).Nodup →
      ∀ m ∈ ms, olookup (ms.map fun me => (me.name, f me)) m.name = some (f m) := by
  intro ms
  induction ms with
  | nil => intro _ m hm; simp at hm
  | cons me ms ih =>
    intro hnd m hm
    rw [List.map_cons, List.nodup_cons] at hnd
    obtain ⟨hni, hnd2⟩ := hnd
    rcases List.mem_cons.mp hm with h | h
    · subst h; simp [olookup]
    · have hne : ¬ me.name = m.name := fun he =>
        hni (he ▸ List.mem_map_of_mem Measure.name h)
      simp [olookup, hne, ih hnd2 m h]

/-- Names of elements produced by a `filterMap` whose results are named
after their keys are distinct whenever the keys are. -/
theorem nodup_filterMap_names {β : Type} (name : β → String)
    (f : String → Option β) (hf : ∀ k m, f k = some m → name m = k) :
    ∀ K : List String, K.Nodup → ((K.filterMap f).map name).Nodup := by
  intro K
  induction K with
  | nil => intro _; simp
  | cons k K ih =>
    intro hnd
    rcases List.nodup_cons.mp hnd with ⟨hk, hK⟩
    rcases hfk : f k with _ | m
    · simpa [List.filterMap_cons, hfk] using ih hK
    · simp only [List.filterMap_cons, hfk, List.map_cons, List.nodup_cons]
      refine ⟨?_, ih hK⟩
      intro hmem
      rcases List.mem_map.mp hmem with ⟨m2, hm2, hname⟩
      rcases List.mem_filterMap.mp hm2 with ⟨k2, hk2, hfk2⟩
      have : name m2 = k2 := hf k2 m2 hfk2
      rw [hf k m hfk, this] at hname
      exact hk (hname ▸ hk2)

theorem drillUpCell_measures (dimension : String) (g : Gran) (c : CubeCell) :
    (drillUpCell dimension g c).measures = c.measures := by
  unfold drillUpCell
  rcases h : parseToDate (olookup c.coordinates dimension) with _ | jd <;> simp [h]

/-- On its aggregation path, `drillUp` emits the `sum`-aggregation of the
coordinate-rewritten cells grouped by all dimensions. -/
theorem drillUp_data (cube : OLAPCube) (dimension sourceLevel : String)
    (now : Nat) (m0 : Measure) (hdata : cube.data ≠ [])
    (hhead : cube.measures.head? = some m0) (hname : m0.name ≠ "") :
    (drillUp cube dimension sourceLevel now).data =
      aggregateData
        (cube.data.map (drillUpCell dimension
          (match detectGranularity
              (cube.data.map (fun c => olookup c.coordinates dimension)) with
            | .day => .month
            | .month => .year
            | .year => .year)))
        (cube.dimensions.map Dimension.name) m0.name .sum := by
  simp only [drillUp, if_neg hdata, hhead, if_neg hname]

/-- On its aggregation path, `pivotCube` emits the `sum`-aggregation of the
input cells grouped by the chosen axes. -/
theorem pivot_data (cube : OLAPCube) (axis : AxisAssignment) (now : Nat)
    (mn : String) (haxes : [axis.x, axis.y, axis.z].filterMap id ≠ [])
    (hres : jsStrOr axis.measure (cube.measures.head?.map Measure.name) = some mn)
    (hmn : mn ≠ "") :
    (pivotCube cube axis now).data =
      aggregateData cube.data ([axis.x, axis.y, axis.z].filterMap id) mn .sum := by
  simp only [pivotCube, if_neg haxes, hres, if_neg hmn]

theorem measureTotal_map_drillUpCell (cells : List CubeCell)
    (dimension : String) (g : Gran) (mn : String) :
    measureTotal (cells.map (drillUpCell dimension g)) mn =
      measureTotal cells mn := by
  unfold measureTotal
  rw [List.map_map]
  congr 1
  apply List.map_congr_left
  intro c _
  simp [Function.comp, drillUpCell_measures]

theorem data_append (a b : String) : (a ++ b).data = a.data ++ b.data := by
  cases a; cases b; rfl

theorem asString_data (s : String) : List.asString s.data = s := by
  cases s; rfl

theorem jsSplitCh_ne_nil (c : Char) : ∀ cs, jsSplitCh c cs ≠ [] := by
  intro cs
  induction cs with
  | nil => simp [jsSplitCh]
  | cons x xs ih =>
    simp only [jsSplitCh]
    rcases h : jsSplitCh c xs with _ | ⟨y, ys⟩
    · simp
    · by_cases hx : x = c <;> simp [hx]

theorem jsSplitCh_no_sep (c : Char) :
    ∀ cs comp, comp ∈ jsSplitCh c cs → c ∉ comp := by
  intro cs
  induction cs with
  | nil =>
    intro comp hc
    simp [jsSplitCh] at hc
    simp [hc]
  | cons x xs ih =>
    intro comp hc
    rcases h : jsSplitCh c xs with _ | ⟨y, ys⟩
    · exact absurd h (jsSplitCh_ne_nil c xs)
    · simp only [jsSplitCh, h] at hc
      by_cases hx : x = c
      · rw [if_pos hx] at hc
        rcases List.mem_cons.mp hc with h1 | h1
        · subst h1; simp
        · exact ih comp (by rw [h]; exact h1)
      · rw [if_neg hx] at hc
        rcases List.mem_cons.mp hc with h1 | h1
        · subst h1
          intro hm
          rcases List.mem_cons.mp hm with h2 | h2
          · exact hx h2.symm
          · exact ih y (by rw [h]; exact List.mem_cons_self y ys) h2
        · exact ih comp (by rw [h]; exact List.mem_cons_of_mem y h1)

/-- Splitting a list that starts with a separator-free prefix followed by
the separator yields that prefix as the first component. -/
theorem jsSplitCh_prefix (c : Char) :
    ∀ (ys rest : List Char), c ∉ ys →
      jsSplitCh c (ys ++ c :: rest) = ys :: jsSplitCh c rest := by
  intro ys
  induction ys with
  | nil =>
    intro rest _
    simp only [List.nil_append, jsSplitCh]
    rcases h : jsSplitCh c rest with _ | ⟨y, ysl⟩
    · exact absurd h (jsSplitCh_ne_nil c rest)
    · simp
  | cons x xs ih =>
    intro rest hni
    have hx : x ≠ c := fun he => hni (he ▸ List.mem_cons_self x xs)
    have hxs : c ∉ xs := fun hm => hni (List.mem_cons_of_mem x hm)
    simp only [List.cons_append, jsSplitCh, List.append_eq]
    rw [ih rest hxs]
    simp [hx]

theorem monthKeyOf_data (d : String) :
    (monthKeyOf d).data = (yearOf d).data ++ '-' :: (monthPart d).data := by
  unfold monthKeyOf
  rw [data_append, data_append]
  simp

theorem yearOf_ne_monthKeyOf (d : String) : yearOf d ≠ monthKeyOf d := by
  intro he
  have hlen : (yearOf d).data.length = (monthKeyOf d).data.length :=
    congrArg (fun s => s.data.length) he
  rw [monthKeyOf_data] at hlen
  simp only [List.length_append, List.length_cons] at hlen
  omega

theorem dash_not_mem_yearOf (d : String) : '-' ∉ (yearOf d).data := by
  unfold yearOf
  rcases h : jsSplitCh '-' d.toList with _ | ⟨y, ys⟩
  · exact absurd h (jsSplitCh_ne_nil _ _)
  · show '-' ∉ y
    exact jsSplitCh_no_sep '-' d.toList y (by rw [h]; exact List.mem_cons_self y ys)

/-- The first split component of a month key is the original year. -/
theorem yearOf_monthKeyOf (d : String) : yearOf (monthKeyOf d) = yearOf d := by
  have hsplit : jsSplitCh '-' (monthKeyOf d).toList =
      (yearOf d).data :: jsSplitCh '-' (monthPart d).data := by
    rw [show (monthKeyOf d).toList =
        (yearOf d).data ++ '-' :: (monthPart d).data from monthKeyOf_data d]
    exact jsSplitCh_prefix '-' _ _ (dash_not_mem_yearOf d)
  show ((jsSplitCh '-' (monthKeyOf d).toList).headD []).asString = yearOf d
  rw [hsplit]
  exact asString_data _


/-- Lookup characterisation of the childMap update made by one Date step. -/
theorem dateStep_cm_lookup {α : Type} (cm : List (String × List α))
    (y mk : String) (hne : y ≠ mk) (w1 w2 : α) :
    ∀ q, olookup (objAppendList (objAppendList
        (objEnsureList (objEnsureList cm y) mk) y w1) mk w2) q =
      if mk = q then some ((olookup cm mk).getD [] ++ [w2])
      else if y = q then some ((olookup cm y).getD [] ++ [w1])
      else olookup cm q := by
  have h1 := olookup_objEnsureList cm y
  have h2 := olookup_objEnsureList (objEnsureList cm y) mk
  have hy2 : olookup (objEnsureList (objEnsureList cm y) mk) y =
      some ((olookup cm y).getD []) := by
    rw [h2 y, if_neg (fun he => hne he.symm), h1 y, if_pos rfl]
  have h3 := olookup_objAppendList y w1 _ _ hy2
  have hmk3 : olookup (objAppendList
      (objEnsureList (objEnsureList cm y) mk) y w1) mk =
      some ((olookup cm mk).getD []) := by
    rw [h3 mk, if_neg hne, h2 mk, if_pos rfl, h1 mk, if_neg hne]
  have h4 := olookup_objAppendList mk w2 _ _ hmk3
  intro q
  rw [h4 q]
  by_cases hq : mk = q
  · rw [if_pos hq, if_pos hq]
  · rw [if_neg hq, if_neg hq, h3 q]
    by_cases hyq : y = q
    · rw [if_pos hyq, if_pos hyq]
    · rw [if_neg hyq, if_neg hyq, h2 q, if_neg hq, h1 q, if_neg hyq]

/-- Lookup characterisation of the parentMap update made by one Date step. -/
theorem dateStep_pm_lookup (pm : List (String × String)) (date mk y : String) :
    ∀ q, olookup (objSet (objSet pm date mk) mk y) q =
      if mk = q then some y
      else if date = q then some mk
      else olookup pm q := by
  intro q
  rw [olookup_objSet]
  by_cases hq : mk = q
  · rw [if_pos hq, if_pos hq]
  · rw [if_neg hq, if_neg hq, olookup_objSet]


theorem dualAC_nil : DualAC [] [] := by
  intro k p hkp
  simp [olookup] at hkp

theorem dualAC_dateStep (pm : List (String × String))
    (cm : List (String × List (Option Value))) (date : String)
    (hAC : DualAC pm cm) :
    DualAC (dateHierStep (pm, cm) date).1 (dateHierStep (pm, cm) date).2 := by
  intro k p hkp
  have hne := yearOf_ne_monthKeyOf date
  have hnemk : ¬ monthKeyOf date = yearOf date := fun he => hne he.symm
  have hpm := dateStep_pm_lookup pm date (monthKeyOf date) (yearOf date)
  have hcm := dateStep_cm_lookup cm (yearOf date) (monthKeyOf date) hne
    (some (Value.str (monthKeyOf date))) (some (Value.str date))
  simp only [dateHierStep] at hkp ⊢
  rw [hpm k] at hkp
  by_cases hk : monthKeyOf date = k
  · rw [if_pos hk] at hkp
    obtain rfl := Option.some.inj hkp
    rw [hcm (yearOf date), if_neg hnemk, if_pos rfl]
    refine ⟨some (Value.str (monthKeyOf date)), ?_, hk⟩
    simp
  · rw [if_neg hk] at hkp
    by_cases hd : date = k
    · rw [if_pos hd] at hkp
      obtain rfl := Option.some.inj hkp
      rw [hcm (monthKeyOf date), if_pos rfl]
      refine ⟨some (Value.str date), ?_, hd⟩
      simp
    · rw [if_neg hd] at hkp
      obtain ⟨w, hw, hs⟩ := hAC k p hkp
      rw [hcm p]
      by_cases hp1 : monthKeyOf date = p
      · rw [if_pos hp1]
        refine ⟨w, ?_, hs⟩
        rw [← hp1] at hw
        simpa using Or.inl hw
      · rw [if_neg hp1]
        by_cases hp2 : yearOf date = p
        · rw [if_pos hp2]
          refine ⟨w, ?_, hs⟩
          rw [← hp2] at hw
          simpa using Or.inl hw
        · rw [if_neg hp2]
          exact ⟨w, hw, hs⟩

theorem dualAC_productStep (data : List Record)
    (pm : List (String × String))
    (cm : List (String × List (Option Value))) (o : Option Value)
    (hAC : DualAC pm cm) :
    DualAC (productHierStep data (pm, cm) o).1
      (productHierStep data (pm, cm) o).2 := by
  rcases hcat : catOf data o with _ | c
  · simpa [productHierStep, hcat] using hAC
  · by_cases htr : jsTruthy c
    · intro k p hkp
      simp only [productHierStep, hcat, htr, if_pos] at hkp ⊢
      rw [olookup_objSet] at hkp
      have hcm := olookup_objPush cm c.display o
      by_cases hk : jsStringOfOpt o = k
      · rw [if_pos hk] at hkp
        obtain rfl := Option.some.inj hkp
        rw [hcm c.display, if_pos rfl]
        refine ⟨o, ?_, hk⟩
        simp
      · rw [if_neg hk] at hkp
        obtain ⟨w, hw, hs⟩ := hAC k p hkp
        rw [hcm p]
        by_cases hp : c.display = p
        · rw [if_pos hp]
          refine ⟨w, ?_, hs⟩
          rw [← hp] at hw
          simpa using Or.inl hw
        · rw [if_neg hp]
          exact ⟨w, hw, hs⟩
    · simpa [productHierStep, hcat, htr] using hAC

theorem dualAC_foldDate (todo : List String) :
    ∀ pm cm, DualAC pm cm →
      DualAC (todo.foldl dateHierStep (pm, cm)).1
        (todo.foldl dateHierStep (pm, cm)).2 := by
  induction todo with
  | nil => intro pm cm h; exact h
  | cons e todo ih =>
    intro pm cm h
    exact ih (dateHierStep (pm, cm) e).1 (dateHierStep (pm, cm) e).2
      (dualAC_dateStep pm cm e h)

theorem dualAC_foldProduct (data : List Record) (todo : List (Option Value)) :
    ∀ pm cm, DualAC pm cm →
      DualAC (todo.foldl (productHierStep data) (pm, cm)).1
        (todo.foldl (productHierStep data) (pm, cm)).2 := by
  induction todo with
  | nil => intro pm cm h; exact h
  | cons o todo ih =>
    intro pm cm h
    exact ih (productHierStep data (pm, cm) o).1
      (productHierStep data (pm, cm) o).2
      (dualAC_productStep data pm cm o h)

theorem dateHierarchy_AC (values : List (Option Value)) :
    DualAC (dateHierarchy values).parentMap (dateHierarchy values).childMap :=
  dualAC_foldDate (values.map jsStringOfOpt) [] [] dualAC_nil

theorem productHierarchy_AC (data : List Record) (uniq : List (Option Value)) :
    DualAC (productHierarchy data uniq).parentMap
      (productHierarchy data uniq).childMap :=
  dualAC_foldProduct data uniq [] [] dualAC_nil


/-- Invariant carried through the Date-hierarchy fold: every processed date
has its two canonical parent entries, and every childMap element is a
canonical child of its key. -/
theorem dateFold_B (DS : List String)
    (hDS : ∀ d1 ∈ DS, ∀ d2 ∈ DS, monthKeyOf d1 ≠ d2) :
    ∀ (todo processed : List String) (pm : List (String × String))
      (cm : List (String × List (Option Value))),
      (∀ d ∈ todo, d ∈ DS) → (∀ d ∈ processed, d ∈ DS) →
      (∀ d ∈ processed, olookup pm d = some (monthKeyOf d) ∧
        olookup pm (monthKeyOf d) = some (yearOf d)) →
      (∀ p l, olookup cm p = some l → ∀ w ∈ l, ∃ d, d ∈ processed ∧
        ((w = some (Value.str d) ∧ p = monthKeyOf d) ∨
         (w = some (Value.str (monthKeyOf d)) ∧ p = yearOf d))) →
      (∀ d, (d ∈ processed ∨ d ∈ todo) →
        olookup (todo.foldl dateHierStep (pm, cm)).1 d = some (monthKeyOf d) ∧
        olookup (todo.foldl dateHierStep (pm, cm)).1 (monthKeyOf d) =
          some (yearOf d)) ∧
      (∀ p l, olookup (todo.foldl dateHierStep (pm, cm)).2 p = some l →
        ∀ w ∈ l, ∃ d, (d ∈ processed ∨ d ∈ todo) ∧
        ((w = some (Value.str d) ∧ p = monthKeyOf d) ∨
         (w = some (Value.str (monthKeyOf d)) ∧ p = yearOf d))) := by
  intro todo
  induction todo with
  | nil =>
    intro processed pm cm _ hprocDS hP2 hP3
    constructor
    · intro d hd
      rcases hd with hd | hd
      · exact hP2 d hd
      · simp at hd
    · intro p l hcl w hwl
      obtain ⟨d, hdm, hcase⟩ := hP3 p l hcl w hwl
      exact ⟨d, Or.inl hdm, hcase⟩
  | cons e todo ih =>
    intro processed pm cm htodo hprocDS hP2 hP3
    have heDS : e ∈ DS := htodo e (List.mem_cons_self e todo)
    have hne := yearOf_ne_monthKeyOf e
    have hpm := dateStep_pm_lookup pm e (monthKeyOf e) (yearOf e)
    have hcm := dateStep_cm_lookup cm (yearOf e) (monthKeyOf e) hne
      (some (Value.str (monthKeyOf e))) (some (Value.str e))
    -- the new accumulator
    have step1 : (dateHierStep (pm, cm) e).1 =
        objSet (objSet pm e (monthKeyOf e)) (monthKeyOf e) (yearOf e) := rfl
    have step2 : (dateHierStep (pm, cm) e).2 =
        objAppendList (objAppendList
          (objEnsureList (objEnsureList cm (yearOf e)) (monthKeyOf e))
          (yearOf e) (some (Value.str (monthKeyOf e))))
          (monthKeyOf e) (some (Value.str e)) := rfl
    have hP2' : ∀ d ∈ processed ++ [e],
        olookup (dateHierStep (pm, cm) e).1 d = some (monthKeyOf d) ∧
        olookup (dateHierStep (pm, cm) e).1 (monthKeyOf d) = some (yearOf d) := by
      intro d hd
      have hdDS : d ∈ DS := by
        rcases List.mem_append.mp hd with hd | hd
        · exact hprocDS d hd
        · rw [List.mem_singleton.mp hd]; exact heDS
      constructor
      · rw [step1, hpm d, if_neg (hDS e heDS d hdDS)]
        by_cases hed : e = d
        · rw [if_pos hed, hed]
        · rw [if_neg hed]
          rcases List.mem_append.mp hd with hd | hd
          · exact (hP2 d hd).1
          · exact absurd (List.mem_singleton.mp hd).symm hed
      · rw [step1, hpm (monthKeyOf d)]
        by_cases hmk : monthKeyOf e = monthKeyOf d
        · rw [if_pos hmk]
          have : yearOf e = yearOf d := by
            rw [← yearOf_monthKeyOf e, hmk, yearOf_monthKeyOf d]
          rw [this]
        · rw [if_neg hmk,
            if_neg (fun he2 => hDS d hdDS e heDS he2.symm)]
          rcases List.mem_append.mp hd with hd | hd
          · exact (hP2 d hd).2
          · exact absurd (congrArg monthKeyOf (List.mem_singleton.mp hd)).symm hmk
    have hP3' : ∀ p l, olookup (dateHierStep (pm, cm) e).2 p = some l →
        ∀ w ∈ l, ∃ d, d ∈ processed ++ [e] ∧
        ((w = some (Value.str d) ∧ p = monthKeyOf d) ∨
         (w = some (Value.str (monthKeyOf d)) ∧ p = yearOf d)) := by
      intro p l hcl w hwl
      rw [step2, hcm p] at hcl
      by_cases hp1 : monthKeyOf e = p
      · rw [if_pos hp1] at hcl
        obtain rfl := (Option.some.inj hcl).symm
        rcases List.mem_append.mp hwl with hw | hw
        · rcases hcm0 : olookup cm (monthKeyOf e) with _ | l0
          · rw [hcm0] at hw; simp at hw
          · rw [hcm0] at hw
            obtain ⟨d, hdm, hcase⟩ := hP3 (monthKeyOf e) l0 hcm0 w hw
            exact ⟨d, List.mem_append_left _ hdm, hp1 ▸ hcase⟩
        · refine ⟨e, List.mem_append_right _ (List.mem_singleton_self e), ?_⟩
          exact Or.inl ⟨List.mem_singleton.mp hw, hp1.symm⟩
      · rw [if_neg hp1] at hcl
        by_cases hp2 : yearOf e = p
        · rw [if_pos hp2] at hcl
          obtain rfl := (Option.some.inj hcl).symm
          rcases List.mem_append.mp hwl with hw | hw
          · rcases hcm0 : olookup cm (yearOf e) with _ | l0
            · rw [hcm0] at hw; simp at hw
            · rw [hcm0] at hw
              obtain ⟨d, hdm, hcase⟩ := hP3 (yearOf e) l0 hcm0 w hw
              exact ⟨d, List.mem_append_left _ hdm, hp2 ▸ hcase⟩
          · refine ⟨e, List.mem_append_right _ (List.mem_singleton_self e), ?_⟩
            exact Or.inr ⟨List.mem_singleton.mp hw, hp2.symm⟩
        · rw [if_neg hp2] at hcl
          obtain ⟨d, hdm, hcase⟩ := hP3 p l hcl w hwl
          exact ⟨d, List.mem_append_left _ hdm, hcase⟩
    have hprocDS' : ∀ d ∈ processed ++ [e], d ∈ DS := by
      intro d hd
      rcases List.mem_append.mp hd with hd | hd
      · exact hprocDS d hd
      · rw [List.mem_singleton.mp hd]; exact heDS
    have := ih (processed ++ [e]) (dateHierStep (pm, cm) e).1
      (dateHierStep (pm, cm) e).2
      (fun d hd => htodo d (List.mem_cons_of_mem e hd)) hprocDS' hP2' hP3'
    constructor
    · intro d hd
      refine (this.1 d ?_)
      rcases hd with hd | hd
      · exact Or.inl (List.mem_append_left _ hd)
      · rcases List.mem_cons.mp hd with hd | hd
        · exact Or.inl (List.mem_append_right _ (hd ▸ List.mem_singleton_self e))
        · exact Or.inr hd
    · intro p l hcl w hwl
      obtain ⟨d, hdm, hcase⟩ := this.2 p l hcl w hwl
      refine ⟨d, ?_, hcase⟩
      rcases hdm with hdm | hdm
      · rcases List.mem_append.mp hdm with hdm | hdm
        · exact Or.inl hdm
        · exact Or.inr (List.mem_cons.mpr (Or.inl (List.mem_singleton.mp hdm)))
      · exact Or.inr (List.mem_cons_of_mem e hdm)


/-- Child-to-parent duality for the Date hierarchy, provided no value
coincides with a derived month key. -/
theorem dateHierarchy_B (values : List (Option Value))
    (hds : ∀ v1 ∈ values, ∀ v2 ∈ values,
      monthKeyOf (jsStringOfOpt v1) ≠ jsStringOfOpt v2) :
    ∀ p l, olookup (dateHierarchy values).childMap p = some l →
      ∀ w ∈ l,
        olookup (dateHierarchy values).parentMap (jsStringOfOpt w) = some p := by
  have hDS : ∀ d1 ∈ values.map jsStringOfOpt, ∀ d2 ∈ values.map jsStringOfOpt,
      monthKeyOf d1 ≠ d2 := by
    intro d1 h1 d2 h2
    rcases List.mem_map.mp h1 with ⟨v1, hv1, rfl⟩
    rcases List.mem_map.mp h2 with ⟨v2, hv2, rfl⟩
    exact hds v1 hv1 v2 hv2
  obtain ⟨hP2, hP3⟩ := dateFold_B (values.map jsStringOfOpt) hDS
    (values.map jsStringOfOpt) [] [] []
    (fun d hd => hd) (by intro d hd; simp at hd)
    (by intro d hd; simp at hd)
    (by intro p l h; simp [olookup] at h)
  intro p l hcl w hwl
  obtain ⟨d, hdm, hcase⟩ := hP3 p l hcl w hwl
  have hdm2 : d ∈ values.map jsStringOfOpt := by
    rcases hdm with hdm | hdm
    · simp at hdm
    · exact hdm
  have hd2 := hP2 d (Or.inr hdm2)
  rcases hcase with ⟨rfl, rfl⟩ | ⟨rfl, rfl⟩
  · simpa using hd2.1
  · simpa using hd2.2

/-- Invariant carried through the Product-hierarchy fold. -/
theorem productFold_B (data : List Record) (U : List (Option Value))
    (hinj : ∀ o1 ∈ U, ∀ o2 ∈ U,
      jsStringOfOpt o1 = jsStringOfOpt o2 → o1 = o2) :
    ∀ (todo processed : List (Option Value)) (pm : List (String × String))
      (cm : List (String × List (Option Value))),
      (∀ o ∈ todo, o ∈ U) → (∀ o ∈ processed, o ∈ U) →
      (∀ o ∈ processed, ∀ c, catOf data o = some c → jsTruthy c = true →
        olookup pm (jsStringOfOpt o) = some c.display) →
      (∀ p l, olookup cm p = some l → ∀ w ∈ l, w ∈ processed ∧
        ∃ c, catOf data w = some c ∧ jsTruthy c = true ∧ p = c.display) →
      (∀ o, (o ∈ processed ∨ o ∈ todo) → ∀ c, catOf data o = some c →
        jsTruthy c = true →
        olookup (todo.foldl (productHierStep data) (pm, cm)).1
          (jsStringOfOpt o) = some c.display) ∧
      (∀ p l, olookup (todo.foldl (productHierStep data) (pm, cm)).2 p =
          some l → ∀ w ∈ l, (w ∈ processed ∨ w ∈ todo) ∧
        ∃ c, catOf data w = some c ∧ jsTruthy c = true ∧ p = c.display) := by
  intro todo
  induction todo with
  | nil =>
    intro processed pm cm _ hprocU hP2 hP3
    constructor
    · intro o ho c hc htr
      rcases ho with ho | ho
      · exact hP2 o ho c hc htr
      · simp at ho
    · intro p l hcl w hwl
      obtain ⟨hm, hrest⟩ := hP3 p l hcl w hwl
      exact ⟨Or.inl hm, hrest⟩
  | cons o todo ih =>
    intro processed pm cm htodo hprocU hP2 hP3
    have hoU : o ∈ U := htodo o (List.mem_cons_self o todo)
    have hstepcase : ∀ (pm2 : List (String × String))
        (cm2 : List (String × List (Option Value))),
        productHierStep data (pm, cm) o = (pm2, cm2) →
        True := fun _ _ _ => trivial
    -- case on the category of o
    rcases hcat : catOf data o with _ | c
    · -- no category: the step is the identity
      have hid : productHierStep data (pm, cm) o = (pm, cm) := by
        simp [productHierStep, hcat]
      have := ih processed pm cm
        (fun q hq => htodo q (List.mem_cons_of_mem o hq)) hprocU hP2 hP3
      rw [List.foldl_cons, hid]
      constructor
      · intro o2 ho2 c2 hc2 htr2
        rcases ho2 with ho2 | ho2
        · exact this.1 o2 (Or.inl ho2) c2 hc2 htr2
        · rcases List.mem_cons.mp ho2 with ho2 | ho2
          · rw [ho2] at hc2
            rw [hc2] at hcat
            exact Option.noConfusion hcat
          · exact this.1 o2 (Or.inr ho2) c2 hc2 htr2
      · intro p l hcl w hwl
        obtain ⟨hm, hrest⟩ := this.2 p l hcl w hwl
        rcases hm with hm | hm
        · exact ⟨Or.inl hm, hrest⟩
        · exact ⟨Or.inr (List.mem_cons_of_mem o hm), hrest⟩
    · by_cases htr : jsTruthy c = true
      · -- real step
        have hstep : productHierStep data (pm, cm) o =
            (objSet pm (jsStringOfOpt o) c.display,
             objAppendList (objEnsureList cm c.display) c.display o) := by
          simp [productHierStep, hcat, htr]
        have hcm := olookup_objPush cm c.display o
        have hP2' : ∀ o2 ∈ processed ++ [o], ∀ c2, catOf data o2 = some c2 →
            jsTruthy c2 = true →
            olookup (objSet pm (jsStringOfOpt o) c.display)
              (jsStringOfOpt o2) = some c2.display := by
          intro o2 ho2 c2 hc2 htr2
          have ho2U : o2 ∈ U := by
            rcases List.mem_append.mp ho2 with h | h
            · exact hprocU o2 h
            · rw [List.mem_singleton.mp h]; exact hoU
          rw [olookup_objSet]
          by_cases hso : jsStringOfOpt o = jsStringOfOpt o2
          · rw [if_pos hso]
            have : o = o2 := hinj o hoU o2 ho2U hso
            rw [this, hc2] at hcat
            rw [Option.some.inj hcat]
          · rw [if_neg hso]
            rcases List.mem_append.mp ho2 with h | h
            · exact hP2 o2 h c2 hc2 htr2
            · exact absurd (congrArg jsStringOfOpt
                (List.mem_singleton.mp h)).symm hso
        have hP3' : ∀ p l, olookup (objAppendList
              (objEnsureList cm c.display) c.display o) p = some l →
            ∀ w ∈ l, w ∈ processed ++ [o] ∧
              ∃ c2, catOf data w = some c2 ∧ jsTruthy c2 = true ∧
                p = c2.display := by
          intro p l hcl w hwl
          rw [hcm p] at hcl
          by_cases hp : c.display = p
          · rw [if_pos hp] at hcl
            obtain rfl := (Option.some.inj hcl).symm
            rcases List.mem_append.mp hwl with hw | hw
            · rcases hcm0 : olookup cm c.display with _ | l0
              · rw [hcm0] at hw; simp at hw
              · rw [hcm0] at hw
                obtain ⟨hm, hrest⟩ := hP3 c.display l0 hcm0 w hw
                exact ⟨List.mem_append_left _ hm, hp ▸ hrest⟩
            · refine ⟨List.mem_append_right _
                (List.mem_singleton.mpr (List.mem_singleton.mp hw)), ?_⟩
              exact ⟨c, (List.mem_singleton.mp hw) ▸ hcat, htr, hp.symm⟩
          · rw [if_neg hp] at hcl
            obtain ⟨hm, hrest⟩ := hP3 p l hcl w hwl
            exact ⟨List.mem_append_left _ hm, hrest⟩
        have hprocU' : ∀ q ∈ processed ++ [o], q ∈ U := by
          intro q hq
          rcases List.mem_append.mp hq with h | h
          · exact hprocU q h
          · rw [List.mem_singleton.mp h]; exact hoU
        have := ih (processed ++ [o])
          (objSet pm (jsStringOfOpt o) c.display)
          (objAppendList (objEnsureList cm c.display) c.display o)
          (fun q hq => htodo q (List.mem_cons_of_mem o hq)) hprocU' hP2' hP3'
        rw [List.foldl_cons, hstep]
        constructor
        · intro o2 ho2 c2 hc2 htr2
          refine this.1 o2 ?_ c2 hc2 htr2
          rcases ho2 with ho2 | ho2
          · exact Or.inl (List.mem_append_left _ ho2)
          · rcases List.mem_cons.mp ho2 with ho2 | ho2
            · exact Or.inl (List.mem_append_right _
                (ho2 ▸ List.mem_singleton_self o))
            · exact Or.inr ho2
        · intro p l hcl w hwl
          obtain ⟨hm, hrest⟩ := this.2 p l hcl w hwl
          refine ⟨?_, hrest⟩
          rcases hm with hm | hm
          · rcases List.mem_append.mp hm with hm | hm
            · exact Or.inl hm
            · exact Or.inr (List.mem_cons.mpr
                (Or.inl (List.mem_singleton.mp hm)))
          · exact Or.inr (List.mem_cons_of_mem o hm)
      · -- falsy category: the step is the identity
        have hid : productHierStep data (pm, cm) o = (pm, cm) := by
          simp [productHierStep, hcat, htr]
        have := ih processed pm cm
          (fun q hq => htodo q (List.mem_cons_of_mem o hq)) hprocU hP2 hP3
        rw [List.foldl_cons, hid]
        constructor
        · intro o2 ho2 c2 hc2 htr2
          rcases ho2 with ho2 | ho2
          · exact this.1 o2 (Or.inl ho2) c2 hc2 htr2
          · rcases List.mem_cons.mp ho2 with ho2 | ho2
            · rw [ho2] at hc2
              rw [hc2] at hcat
              obtain rfl := Option.some.inj hcat
              exact absurd htr2 htr
            · exact this.1 o2 (Or.inr ho2) c2 hc2 htr2
        · intro p l hcl w hwl
          obtain ⟨hm, hrest⟩ := this.2 p l hcl w hwl
          rcases hm with hm | hm
          · exact ⟨Or.inl hm, hrest⟩
          · exact ⟨Or.inr (List.mem_cons_of_mem o hm), hrest⟩

/-- Child-to-parent duality for the Product hierarchy, provided string
rendering is injective on the distinct product values. -/
theorem productHierarchy_B (data : List Record) (uniq : List (Option Value))
    (hinj : ∀ o1 ∈ uniq, ∀ o2 ∈ uniq,
      jsStringOfOpt o1 = jsStringOfOpt o2 → o1 = o2) :
    ∀ p l, olookup (productHierarchy data uniq).childMap p = some l →
      ∀ w ∈ l, olookup (productHierarchy data uniq).parentMap
        (jsStringOfOpt w) = some p := by
  obtain ⟨hP2, hP3⟩ := productFold_B data uniq hinj uniq [] [] []
    (fun o ho => ho) (by intro o ho; simp at ho)
    (by intro o ho; simp at ho)
    (by intro p l h; simp [olookup] at h)
  intro p l hcl w hwl
  obtain ⟨hm, c, hc, htr, rfl⟩ := hP3 p l hcl w hwl
  have hm2 : w ∈ uniq := by
    rcases hm with hm | hm
    · simp at hm
    · exact hm
  exact hP2 w (Or.inr hm2) c hc htr

/-! ### The claims -/

/-- Claim C1: on the concrete scenario records, `createOLAPCube` yields
exactly the dimensions Region (categorical, uniqueValues East/West) and
Product (categorical, uniqueValues A/B) and the single measure Sales
(sum, 180); slicing on Region = "East" keeps 2 cells with
`metadata.totalRecords = 2`; aggregating the cube's cells by Region on
Sales with `sum` yields exactly the cells {Region: East, Sales: 150} and
{Region: West, Sales: 30}. -/
theorem spec_c1 :
    (scenarioCube.dimensions.map (fun d => (d.name, d.type, d.uniqueValues)) =
      [("Region", DimType.categorical,
        [some (Value.str "East"), some (Value.str "West")]),
       ("Product", DimType.categorical,
        [some (Value.str "A"), some (Value.str "B")])]) ∧
    scenarioCube.measures = [⟨"Sales", .sum, 180⟩] ∧
    (sliceCube scenarioCube "Region" (.str "East")).data.length = 2 ∧
    (sliceCube scenarioCube "Region" (.str "East")).metadata.totalRecords = 2 ∧
    aggregateData scenarioCube.data ["Region"] "Sales" .sum =
      [⟨[("Region", .str "East")], [("Sales", 150)]⟩,
       ⟨[("Region", .str "West")], [("Sales", 30)]⟩] := by
  refine ⟨by decide, ?_, by decide, by decide, ?_⟩
  · simp +decide [scenarioCube, createOLAPCube, detectMeasures, detectDimensions,
      recordKeys, firstSeen, dimSkip, isMeasureNameCore, nameHas, containsSub,
      startsList, lowerCh, olookup, jsNumOpt, jsNum, jsNumberOfString, trimList,
      isWS, jsSplitCh, natOfDigits, digitVal, jsSum, mkDimension, jsIsNumericSlot,
      scenarioRecords, Measure.mk.injEq]
    norm_num
  · simp +decide [scenarioCube, createOLAPCube, detectMeasures, detectDimensions,
      recordKeys, firstSeen, dimSkip, isMeasureNameCore, nameHas, containsSub,
      startsList, lowerCh, olookup, jsNumOpt, jsNum, jsNumberOfString, trimList,
      isWS, jsSplitCh, natOfDigits, digitVal, jsSum, mkDimension, jsIsNumericSlot,
      scenarioRecords, aggregateData, olapGroups, groupKey, jsJoinEntry,
      Value.display, emitCell, aggValue, mkCell, CubeCell.mk.injEq]
    norm_num

/-- Claim C2: whenever `drillUp` or `pivotCube` takes its aggregation path
(its guards pass: nonempty data and a resolvable, non-falsy measure name),
the total of the resolved measure over the result's cells equals its total
(missing values as 0) over the cells that fed into the grouping — all of
the input cube's cells in both cases.  In the remaining cases both
operators return the input cube, so the totals are trivially preserved. -/
theorem spec_c2 :
    ∀ (cube : OLAPCube) (dimension sourceLevel : String) (now : Nat)
      (axis : AxisAssignment),
    (∀ m0, cube.data ≠ [] → cube.measures.head? = some m0 → m0.name ≠ "" →
      measureTotal (drillUp cube dimension sourceLevel now).data m0.name =
        measureTotal cube.data m0.name) ∧
    (∀ mn, [axis.x, axis.y, axis.z].filterMap id ≠ [] →
      jsStrOr axis.measure (cube.measures.head?.map Measure.name) = some mn →
      mn ≠ "" →
      measureTotal (pivotCube cube axis now).data mn =
        measureTotal cube.data mn) := by
  intro cube dimension sourceLevel now axis
  constructor
  · intro m0 hdata hhead hname
    rw [drillUp_data cube dimension sourceLevel now m0 hdata hhead hname,
      aggregate_sum_total, measureTotal_map_drillUpCell]
  · intro mn haxes hres hmn
    rw [pivot_data cube axis now mn haxes hres hmn, aggregate_sum_total]

/-- Witness for C2 at a concrete cube: both `drillUp` and `pivotCube`
preserve the Sales total of `tinyDrillCube`. -/
theorem spec_c2_witness :
    measureTotal (drillUp tinyDrillCube "Date" "Day" 0).data "Sales" =
      measureTotal tinyDrillCube.data "Sales" ∧
    measureTotal
        (pivotCube tinyDrillCube ⟨some "Date", none, none, none⟩ 0).data
        "Sales" =
      measureTotal tinyDrillCube.data "Sales" :=
  ⟨(spec_c2 tinyDrillCube "Date" "Day" 0
      ⟨some "Date", none, none, none⟩).1 ⟨"Sales", .sum, 0⟩
      (by decide) (by decide) (by decide),
   (spec_c2 tinyDrillCube "Date" "Day" 0
      ⟨some "Date", none, none, none⟩).2 "Sales"
      (by decide) (by decide) (by decide)⟩

/-- C3, counterexample to the claim as stated: the cells `{d: 1}` (number)
and `{d: "1"}` (string) have strictly unequal `d`-coordinates, yet
`aggregateData` puts them into a single group (one output cell), because
grouping uses the `'|'`-joined string rendering, not strict equality. -/
theorem spec_c3_counterexample :
    (aggregateData [collideCellA, collideCellB] ["d"] "m" .sum).length = 1 ∧
    olookup collideCellA.coordinates "d" ≠
      olookup collideCellB.coordinates "d" := by
  decide

/-- Claim C3 as amended: two cells share a group exactly when their
`'|'`-joined stringified keys at `groupDims` coincide (coordinate tuples
equal under strict equality always do, but unequal tuples may collide);
and each output cell's coordinates are taken from the group's first cell
at `groupDims` (present keys only). -/
theorem spec_c3 :
    ∀ (data : List CubeCell) (dims : List String) (mn : String) (ty : AggKind),
      (∀ c1 ∈ data, ∀ c2 ∈ data,
        ((∃ g ∈ olapGroups data dims, c1 ∈ g ∧ c2 ∈ g) ↔
          groupKey dims c1 = groupKey dims c2)) ∧
      (∀ out ∈ aggregateData data dims mn ty,
        ∃ g ∈ olapGroups data dims, ∃ c0 t, g = c0 :: t ∧
          out.coordinates = dims.filterMap (fun d =>
            (olookup c0.coordinates d).map (fun v => (d, v)))) := by
  intro data dims mn ty
  constructor
  · intro c1 h1 c2 h2
    constructor
    · rintro ⟨g, hg, hc1, hc2⟩
      rcases List.mem_map.mp hg with ⟨k, hk, rfl⟩
      have e1 := (List.mem_filter.mp hc1).2
      have e2 := (List.mem_filter.mp hc2).2
      rw [beq_iff_eq] at e1 e2
      exact e1.trans e2.symm
    · intro hkey
      refine ⟨data.filter (fun c => groupKey dims c == groupKey dims c1),
        ?_, ?_, ?_⟩
      · exact List.mem_map_of_mem _
          (mem_firstSeen.mpr (List.mem_map_of_mem _ h1))
      · exact List.mem_filter.mpr ⟨h1, by simp⟩
      · exact List.mem_filter.mpr ⟨h2, by simp [hkey]⟩
  · intro out hout
    rcases List.mem_map.mp hout with ⟨g, hg, rfl⟩
    have hne := olapGroups_ne_nil data dims g hg
    rcases g with _ | ⟨c0, t⟩
    · exact absurd rfl hne
    · exact ⟨c0 :: t, hg, c0, t, rfl, rfl⟩

/-- Witness for amended C3: the two colliding cells do land in one common
group, as their keys coincide. -/
theorem spec_c3_witness :
    ∃ g ∈ olapGroups [collideCellA, collideCellB] ["d"],
      collideCellA ∈ g ∧ collideCellB ∈ g :=
  ((spec_c3 [collideCellA, collideCellB] ["d"] "m" .sum).1
    collideCellA (by decide) collideCellB (by decide)).mpr (by decide)

/-- Claim C4: for every (necessarily nonempty) group, the emitted value is
the group total for `sum`, the group total divided by the group size for
`average`, the group size for `count`, and a genuine extremum of the
group's value list for `min`/`max` — where a cell missing the measure
contributes `0`. -/
theorem spec_c4 :
    ∀ (data : List CubeCell) (dims : List String) (mn : String) (ty : AggKind)
      (out : CubeCell), out ∈ aggregateData data dims mn ty →
      ∃ g ∈ olapGroups data dims, g ≠ [] ∧
        (ty = .sum → out.measures =
          [(mn, (g.map (fun c => (olookup c.measures mn).getD 0)).sum)]) ∧
        (ty = .average → out.measures =
          [(mn, (g.map (fun c => (olookup c.measures mn).getD 0)).sum /
            (g.length : Rat))]) ∧
        (ty = .count → out.measures = [(mn, (g.length : Rat))]) ∧
        (ty = .min → ∃ v, out.measures = [(mn, v)] ∧
          v ∈ g.map (fun c => (olookup c.measures mn).getD 0) ∧
          ∀ w ∈ g.map (fun c => (olookup c.measures mn).getD 0), v ≤ w) ∧
        (ty = .max → ∃ v, out.measures = [(mn, v)] ∧
          v ∈ g.map (fun c => (olookup c.measures mn).getD 0) ∧
          ∀ w ∈ g.map (fun c => (olookup c.measures mn).getD 0), w ≤ v) := by
  intro data dims mn ty out hout
  rcases List.mem_map.mp hout with ⟨g, hg, rfl⟩
  have hne := olapGroups_ne_nil data dims g hg
  refine ⟨g, hg, hne, ?_, ?_, ?_, ?_, ?_⟩
  · rintro rfl
    simp [emitCell, aggValue, jsSum_eq_sum]
  · rintro rfl
    simp [emitCell, aggValue, jsSum_eq_sum]
  · rintro rfl
    simp [emitCell, aggValue]
  · rintro rfl
    rcases g with _ | ⟨c0, t⟩
    · exact absurd rfl hne
    · refine ⟨(t.map (fun c => (olookup c.measures mn).getD 0)).foldl min
        ((olookup c0.measures mn).getD 0), ?_, ?_, ?_⟩
      · simp [emitCell, aggValue, jsMinList_cons]
      · simpa using foldl_min_mem
          (t.map (fun c => (olookup c.measures mn).getD 0))
          ((olookup c0.measures mn).getD 0)
      · intro w hw
        apply foldl_min_le
        simpa using hw
  · rintro rfl
    rcases g with _ | ⟨c0, t⟩
    · exact absurd rfl hne
    · refine ⟨(t.map (fun c => (olookup c.measures mn).getD 0)).foldl max
        ((olookup c0.measures mn).getD 0), ?_, ?_, ?_⟩
      · simp [emitCell, aggValue, jsMaxList_cons]
      · simpa using foldl_max_mem
          (t.map (fun c => (olookup c.measures mn).getD 0))
          ((olookup c0.measures mn).getD 0)
      · intro w hw
        apply foldl_max_ge
        simpa using hw

/-- Witness for C4 at a concrete `min` aggregation of a single cell. -/
theorem spec_c4_witness :
    ∃ g ∈ olapGroups [collideCellA] ["d"], g ≠ [] :=
  (spec_c4 [collideCellA] ["d"] "m" .min
      ⟨[("d", .num 1)], [("m", 5)]⟩ (by decide)).elim
    (fun g hg => ⟨g, hg.1, hg.2.1⟩)

/-- Claim C5: `sliceCube` keeps exactly the cells whose coordinate at the
sliced dimension is strictly equal to the value (an absent or
differently-typed coordinate never matches), sets
`metadata.totalRecords` to the retained-cell count, and leaves the
dimension list, measure list and `metadata.lastUpdated` untouched. -/
theorem spec_c5 :
    ∀ (cube : OLAPCube) (d : String) (v : Value),
      (sliceCube cube d v).data =
        cube.data.filter (fun c => olookup c.coordinates d == some v) ∧
      (∀ c, c ∈ (sliceCube cube d v).data ↔
        c ∈ cube.data ∧ olookup c.coordinates d = some v) ∧
      (sliceCube cube d v).metadata.totalRecords =
        (sliceCube cube d v).data.length ∧
      (sliceCube cube d v).dimensions = cube.dimensions ∧
      (sliceCube cube d v).measures = cube.measures ∧
      (sliceCube cube d v).metadata.lastUpdated = cube.metadata.lastUpdated := by
  intro cube d v
  refine ⟨rfl, ?_, rfl, rfl, rfl, rfl⟩
  intro c
  simp [sliceCube, List.mem_filter]

/-- Claim C6: the no-op (fail-closed) branches of the operators — a
`drillDown` on an unknown dimension, a dimension without hierarchy, or
with no children below the present values returns the cube unchanged,
and so does a `pivotCube` with no selected axis or no resolvable
(non-falsy) measure.  Being total Lean functions, the operators cannot
raise. -/
theorem spec_c6 :
    ∀ (cube : OLAPCube) (dimension targetLevel : String)
      (axis : AxisAssignment) (now : Nat),
    (cube.dimensions.find? (fun d => d.name == dimension) = none →
      drillDown cube dimension targetLevel = cube) ∧
    (∀ dim, cube.dimensions.find? (fun d => d.name == dimension) = some dim →
      dim.hierarchy = none → drillDown cube dimension targetLevel = cube) ∧
    (∀ dim h, cube.dimensions.find? (fun d => d.name == dimension) = some dim →
      dim.hierarchy = some h →
      listFlat ((firstSeen (cube.data.map (fun c =>
        olookup c.coordinates dimension))).map (fun v =>
          (olookup h.childMap (jsStringOfOpt v)).getD [])) = [] →
      drillDown cube dimension targetLevel = cube) ∧
    ([axis.x, axis.y, axis.z].filterMap id = [] →
      pivotCube cube axis now = cube) ∧
    (jsStrOr axis.measure (cube.measures.head?.map Measure.name) = none →
      pivotCube cube axis now = cube) ∧
    (jsStrOr axis.measure (cube.measures.head?.map Measure.name) = some "" →
      pivotCube cube axis now = cube) := by
  intro cube dimension targetLevel axis now
  refine ⟨?_, ?_, ?_, ?_, ?_, ?_⟩
  · intro hfind
    by_cases hdata : cube.data = []
    · simp [drillDown, hdata]
    · simp [drillDown, hdata, hfind]
  · intro dim hfind hh
    by_cases hdata : cube.data = []
    · simp [drillDown, hdata]
    · simp [drillDown, hdata, hfind, hh]
  · intro dim h hfind hh hempty
    by_cases hdata : cube.data = []
    · simp [drillDown, hdata]
    · rcases hm : cube.measures.head? with _ | m0
      · simp [drillDown, hdata, hfind, hh, hm]
      · by_cases hname : m0.name = ""
        · simp [drillDown, hdata, hfind, hh, hm, hname]
        · simp [drillDown, hdata, hfind, hh, hm, hname, hempty]
  · intro haxes
    simp [pivotCube, haxes]
  · intro hres
    by_cases haxes : [axis.x, axis.y, axis.z].filterMap id = []
    · simp [pivotCube, haxes]
    · simp [pivotCube, haxes, hres]
  · intro hres
    by_cases haxes : [axis.x, axis.y, axis.z].filterMap id = []
    · simp [pivotCube, haxes]
    · simp [pivotCube, haxes, hres]

/-- Witness for C6: a hierarchy-less drill-down and an axis-less pivot both
leave `noHierCube` unchanged. -/
theorem spec_c6_witness :
    drillDown noHierCube "d" "lvl" = noHierCube ∧
    pivotCube noHierCube ⟨none, none, none, none⟩ 0 = noHierCube :=
  ⟨(spec_c6 noHierCube "d" "lvl" ⟨none, none, none, none⟩ 0).2.1
      ⟨"d", .categorical, [some (.str "x")], [some (.str "x")], none⟩
      (by decide) (by decide),
   (spec_c6 noHierCube "d" "lvl" ⟨none, none, none, none⟩ 0).2.2.2.1
      (by decide)⟩

/-- Claim C8: a column retained as a dimension is `numerical` exactly when
strictly more than 80% of its slots are numeric (`5·numeric > 4·total`,
the exact integer form of the float comparison `count > length * 0.8`);
otherwise `temporal` exactly when its lowercased name contains "date" or
"time"; otherwise `categorical`.  In particular a column at exactly 80%
numeric is not numerical. -/
theorem spec_c8 :
    ∀ (data : List Record) (d : Dimension), data ≠ [] →
      d ∈ detectDimensions data →
      d.values = data.map (fun r => olookup r d.name) ∧
      d.type = (if 5 * (d.values.countP jsIsNumericSlot) > 4 * d.values.length
        then DimType.numerical
        else if (nameHas "date" d.name || nameHas "time" d.name) = true
        then DimType.temporal else DimType.categorical) := by
  intro data d hne hd
  rcases data with _ | ⟨r0, rest⟩
  · exact absurd rfl hne
  · simp only [detectDimensions] at hd
    rcases List.mem_filterMap.mp hd with ⟨key, hkey, hsome⟩
    by_cases hskip : dimSkip (r0 :: rest) key
    · simp [hskip] at hsome
    · rw [if_neg hskip] at hsome
      obtain rfl := Option.some.inj hsome
      exact ⟨rfl, rfl⟩

/-- Witness for C8 on a one-column record list: the `City` column is
categorical (0% numeric, no date/time in the name). -/
theorem spec_c8_witness :
    cityDim.values = cityRecords.map (fun r => olookup r cityDim.name) ∧
    cityDim.type =
      (if 5 * (cityDim.values.countP jsIsNumericSlot) >
          4 * cityDim.values.length
        then DimType.numerical
        else if (nameHas "date" cityDim.name || nameHas "time" cityDim.name)
            = true
        then DimType.temporal else DimType.categorical) :=
  spec_c8 cityRecords cityDim (by decide) (by decide)

/-- Claim C9: dicing one dimension on a two-value list keeps exactly the
union of the two corresponding slices' cell sets. -/
theorem spec_c9 :
    ∀ (cube : OLAPCube) (d : String) (v1 v2 : Value) (c : CubeCell),
      c ∈ (diceCube cube [(d, [v1, v2])]).data ↔
        c ∈ (sliceCube cube d v1).data ∨ c ∈ (sliceCube cube d v2).data := by
  intro cube d v1 v2 c
  simp only [diceCube, sliceCube, List.mem_filter]
  rcases h : olookup c.coordinates d with _ | w
  · simp [h]
  · by_cases hc : c ∈ cube.data <;> simp [h, hc]

/-- Claim C10 (implicit invariant): every measure cached on a freshly
built cube carries as `value` exactly the sum of that measure over the
cube's cells — the coercion-filtered total and the per-cell totals (failed
coercions stored as 0) agree. -/
theorem spec_c10 :
    ∀ (data : List Record) (now : Nat) (m : Measure),
      m ∈ (createOLAPCube data now).measures →
      m.value = measureTotal (createOLAPCube data now).data m.name := by
  intro data now m hm
  have hm0 : m ∈ detectMeasures data (detectDimensions data) := hm
  have hdata : (createOLAPCube data now).data =
      data.map (mkCell (detectDimensions data)
        (detectMeasures data (detectDimensions data))) := rfl
  rcases hdl : data with _ | ⟨r0, rest⟩
  · subst hdl; simp [detectMeasures] at hm0
  · subst hdl
    have hnodup : ((detectMeasures (r0 :: rest)
        (detectDimensions (r0 :: rest))).map Measure.name).Nodup := by
      apply nodup_filterMap_names
      · intro k m2 hF
        split_ifs at hF
        obtain rfl := Option.some.inj hF
        rfl
      · exact nodup_firstSeen _
    have hm1 := hm0
    simp only [detectMeasures] at hm1
    rcases List.mem_filterMap.mp hm1 with ⟨key, hkey, hsome⟩
    split_ifs at hsome with h1 h2 h3
    · obtain rfl := Option.some.inj hsome
      have hrow : ∀ r : Record, ((fun c => (olookup c.measures key).getD 0) ∘
          mkCell (detectDimensions (r0 :: rest))
            (detectMeasures (r0 :: rest) (detectDimensions (r0 :: rest)))) r =
          (jsNumOpt (olookup r key)).getD 0 := by
        intro r
        have h := olookup_map_measures
          (fun me => (jsNumOpt (olookup r me.name)).getD 0)
          (detectMeasures (r0 :: rest) (detectDimensions (r0 :: rest)))
          hnodup _ hm0
        dsimp only at h
        simp only [Function.comp_apply, mkCell]
        rw [h]
        rfl
      show jsSum (List.filterMap (fun r => jsNumOpt (olookup r key)) (r0 :: rest)) =
        measureTotal (createOLAPCube (r0 :: rest) now).data key
      rw [jsSum_eq_sum,
        sum_filterMap_getD (fun r => jsNumOpt (olookup r key)) (r0 :: rest), hdata]
      unfold measureTotal
      rw [List.map_map]
      exact congrArg List.sum (List.map_congr_left (fun r _ => hrow r)).symm

/-- Witness for C10: the scenario cube's Sales measure equals the per-cell
Sales total. -/
theorem spec_c10_witness :
    scenarioMeasure.value =
      measureTotal (createOLAPCube scenarioRecords 0).data
        scenarioMeasure.name :=
  spec_c10 scenarioRecords 0 scenarioMeasure (by
    rw [show (createOLAPCube scenarioRecords 0).measures = [scenarioMeasure]
      from rfl]
    exact List.mem_singleton_self _)

/-- Claim C7 as amended: for every hierarchy constructed by
`detectDimensions`, every `parentMap` entry `k ↦ p` has a witness among
`childMap[p]` rendering to `k` (unconditionally); and conversely every
value listed in `childMap[p]` maps back to `p` under `parentMap`, provided
(Date) no Date value coincides with a derived year-month key and
(Product) string rendering is injective on the distinct Product values —
the hypotheses the counterexample forces. -/
theorem spec_c7 :
    ∀ (data : List Record) (d : Dimension) (h : Hierarchy),
      d ∈ detectDimensions data → d.hierarchy = some h →
      (∀ k p, olookup h.parentMap k = some p →
        ∃ w ∈ (olookup h.childMap p).getD [], jsStringOfOpt w = k) ∧
      ((d.name = "Date" → ∀ v1 ∈ d.values, ∀ v2 ∈ d.values,
          monthKeyOf (jsStringOfOpt v1) ≠ jsStringOfOpt v2) →
       (d.name = "Product" → ∀ o1 ∈ d.uniqueValues, ∀ o2 ∈ d.uniqueValues,
          jsStringOfOpt o1 = jsStringOfOpt o2 → o1 = o2) →
       ∀ p l, olookup h.childMap p = some l →
         ∀ w ∈ l, olookup h.parentMap (jsStringOfOpt w) = some p) := by
  intro data d h hd hh
  rcases data with _ | ⟨r0, rest⟩
  · simp [detectDimensions] at hd
  · simp only [detectDimensions] at hd
    rcases List.mem_filterMap.mp hd with ⟨key, hkey, hsome⟩
    by_cases hskip : dimSkip (r0 :: rest) key
    · simp [hskip] at hsome
    · rw [if_neg hskip] at hsome
      obtain rfl := Option.some.inj hsome
      by_cases hdate : key = "Date"
      · have hhier : (mkDimension (r0 :: rest) key).hierarchy =
            some (dateHierarchy
              ((r0 :: rest).map (fun r => olookup r key))) := by
          simp [mkDimension, hdate]
        have hhd : h = dateHierarchy
            ((r0 :: rest).map (fun r => olookup r key)) :=
          Option.some.inj (hh.symm.trans hhier)
        subst hhd
        constructor
        · exact dateHierarchy_AC _
        · intro hv _
          apply dateHierarchy_B
          intro v1 h1 v2 h2
          exact hv (by simp [mkDimension, hdate]) v1 h1 v2 h2
      · by_cases hprod : key = "Product"
        · have hhier : (mkDimension (r0 :: rest) key).hierarchy =
              some (productHierarchy (r0 :: rest)
                (firstSeen ((r0 :: rest).map (fun r => olookup r key)))) := by
            simp [mkDimension, hdate, hprod]
          have hhd : h = productHierarchy (r0 :: rest)
              (firstSeen ((r0 :: rest).map (fun r => olookup r key))) :=
            Option.some.inj (hh.symm.trans hhier)
          subst hhd
          constructor
          · exact productHierarchy_AC _ _
          · intro _ hinj
            apply productHierarchy_B
            intro o1 h1 o2 h2
            exact hinj (by simp [mkDimension, hdate, hprod]) o1 h1 o2 h2
        · have : (mkDimension (r0 :: rest) key).hierarchy = none := by
            simp [mkDimension, hdate, hprod]
          rw [this] at hh
          exact Option.noConfusion hh

/-- C7, counterexample to the claim as stated: for the single record
`{Date: "2023-01"}` the constructed Date hierarchy lists `"2023-01"` among
`childMap["2023-01"]`, yet `parentMap["2023-01"]` is `"2023"`, not
`"2023-01"` — the month key collided with the value itself and overwrote
its parent entry, so the maps are not mutually consistent duals. -/
theorem spec_c7_counterexample :
    monthDateDim ∈ detectDimensions monthDateRecords ∧
    monthDateDim.hierarchy = some monthDateHier ∧
    olookup monthDateHier.childMap "2023-01" = some [some (Value.str "2023-01")] ∧
    olookup monthDateHier.parentMap "2023-01" = some "2023" ∧
    ("2023" : String) ≠ "2023-01" := by
  decide

/-- Witness for amended C7 on well-formed day-granularity records: both
duality directions hold for the constructed Date hierarchy. -/
theorem spec_c7_witness :
    dayDateDim ∈ detectDimensions dayDateRecords ∧
    dayDateDim.hierarchy = some dayDateHier ∧
    ((∀ k p, olookup dayDateHier.parentMap k = some p →
      ∃ w ∈ (olookup dayDateHier.childMap p).getD [], jsStringOfOpt w = k) ∧
    (∀ p l, olookup dayDateHier.childMap p = some l →
      ∀ w ∈ l, olookup dayDateHier.parentMap (jsStringOfOpt w) = some p)) := by
  refine ⟨by decide, by decide, ?_⟩
  have h := spec_c7 dayDateRecords dayDateDim dayDateHier (by decide) (by decide)
  exact ⟨h.1, h.2 (fun _ => by decide) (fun hc => absurd hc (by decide))⟩

end OlapViz
